import Mathlib

/-!
Verification of the tiny-adk agent toolkit against its specification.

Each section shallowly embeds one part of the Python source
(`src/tiny_adk/...`) as executable Lean definitions and proves (or
refutes) the corresponding specification claims.  Python dictionaries
are modelled as insertion-ordered association lists, Python `None` as
`Option`, raised exceptions as `Except`, and `datetime` timestamps as
rationals (seconds since the epoch, as produced by
`timestamp.timestamp()`).
-/

namespace TinyAdk

/-! ## Event model (`src/tiny_adk/events.py`)

`EventType` lists exactly the members of the Python `EventType` enum. -/

inductive EventType where
  | userMessage
  | modelRequest
  | modelResponse
  | modelResponseDelta
  | toolCall
  | toolResponse
  | agentTransfer
  | error
  deriving DecidableEq, Repr

/-- Attribute lookup on the `EventType` enum class: `EventType.<attr>` in
Python succeeds exactly for the eight declared members and raises
`AttributeError` for any other name.  The table below is the class body of
`EventType` in `events.py`. -/
def eventTypeAttr : String → Option EventType
  | "USER_MESSAGE" => some .userMessage
  | "MODEL_REQUEST" => some .modelRequest
  | "MODEL_RESPONSE" => some .modelResponse
  | "MODEL_RESPONSE_DELTA" => some .modelResponseDelta
  | "TOOL_CALL" => some .toolCall
  | "TOOL_RESPONSE" => some .toolResponse
  | "AGENT_TRANSFER" => some .agentTransfer
  | "ERROR" => some .error
  | _ => none

/-! ## Events as seen by the session projection (`session.py`)

`get_conversation_history` reads `event.content` with a shape that depends
on `event_type`: a string for user messages and model responses, a dict
with keys `id` / `name` / `arguments` for tool calls and `call_id` /
`result` for tool responses.  `Option` models a possibly missing dict key
(`dict.get` defaults are applied at the use site, as in the source). -/

/-- Value stored under `arguments` of a tool-call event: either already a
JSON string or a dict (modelled as an association list of string pairs). -/
inductive ArgVal where
  | str (s : String)
  | dict (d : List (String × String))
  deriving DecidableEq, Repr

/-- Shallow embedding of `Event` restricted to the fields the session
projection reads.  Payload fields of event kinds the projection ignores
are dropped. -/
inductive PEvent where
  | userMessage (content : String)
  | modelRequest
  | modelResponse (content : String)
  | modelResponseDelta (content : String)
  | toolCall (id name : Option String) (arguments : Option ArgVal)
  | toolResponse (callId result : Option String)
  | agentTransfer
  | error
  deriving DecidableEq, Repr

/-! ## Session and SessionService (`src/tiny_adk/session.py`) -/

/-- Shallow embedding of the `Session` dataclass.  `metadata` and `state`
are free-form dicts in the source; their values never matter to the
claims, so they are modelled as string-to-string association lists. -/
structure Session where
  sessionId : String
  userId : String
  events : List PEvent
  metadata : List (String × String)
  state : List (String × String)
  deriving DecidableEq, Repr

/-- Embedding of `Session.add_event` (list append). -/
def Session.addEvent (s : Session) (e : PEvent) : Session :=
  { s with events := s.events ++ [e] }

/-- The in-process store `SessionService._sessions`: a dict keyed by the
pair `(user_id, session_id)`, modelled as an insertion-ordered
association list. -/
abbrev SessionStore := List ((String × String) × Session)

/-- Dictionary lookup `self._sessions.get(key)`. -/
def storeGet (st : SessionStore) (k : String × String) : Option Session :=
  (st.find? (fun p => p.1 = k)).map (·.2)

/-- Embedding of `SessionService.get_session`: a pure lookup by
`(user_id, session_id)`; returns `none` when the key is absent and, being
a pure function of the store, never creates anything. -/
def getSession (st : SessionStore) (userId sessionId : String) : Option Session :=
  storeGet st (userId, sessionId)

/-- Embedding of `SessionService.create_session`.  `genId` stands for the
`str(uuid4())` drawn when the caller omits `session_id`; the Python
idiom `session_id or str(uuid4())` also replaces an empty string.
A duplicate key raises `ValueError`, modelled as `Except.error`; on
success the new session is inserted and returned. -/
def createSession (st : SessionStore) (userId : String)
    (sessionId : Option String) (genId : String)
    (state metadata : Option (List (String × String))) :
    Except String (Session × SessionStore) :=
  let sid := match sessionId with
    | some s => if s = "" then genId else s
    | none => genId
  let key := (userId, sid)
  if (storeGet st key).isSome then
    .error ("Session already exists: " ++ sid)
  else
    let session : Session :=
      { sessionId := sid, userId := userId, events := []
        state := state.getD [], metadata := metadata.getD [] }
    .ok (session, st ++ [(key, session)])

/-- Modelled from the spec: the `SessionService` contract of §4.4 keys
sessions by the full identity triple `(app_name, user_id, session_id)`;
this spec-side variant exists only to be compared with the pair-keyed
`createSession` embedded from `session.py`, which has no `app_name`
parameter at all. -/
def createSessionSpecTriple (st : List ((String × String × String) × Session))
    (appName userId sessionId : String) :
    Except String (List ((String × String × String) × Session)) :=
  if (st.find? (fun p => p.1 = (appName, userId, sessionId))).isSome then
    .error ("Session already exists: " ++ sessionId)
  else
    .ok (st ++ [((appName, userId, sessionId),
      { sessionId := sessionId, userId := userId, events := []
        state := [], metadata := [] })])

/-! ### Claim C1 -/

/-- Lookup distributes over store append (dict insertion). -/
theorem storeGet_append (st1 st2 : SessionStore) (k : String × String) :
    storeGet (st1 ++ st2) k = ((storeGet st1 k).or (storeGet st2 k)) := by
  simp only [storeGet, List.find?_append]
  cases st1.find? (fun p => p.1 = k) <;> simp

/-- A key bound by no entry of the store looks up to `none`. -/
theorem storeGet_eq_none (st : SessionStore) (k : String × String)
    (h : ∀ x, (k, x) ∉ st) : storeGet st k = none := by
  simp only [storeGet]
  rw [List.find?_eq_none.mpr]
  · rfl
  · rintro ⟨k2, v⟩ hmem
    simp only [decide_eq_true_eq]
    rintro rfl
    exact h v hmem

/-- Fresh session value as produced by `create_session` for user `"u"`
and session id `"s"`, used by the C1 witness and counterexample. -/
def freshSessUS : Session :=
  { sessionId := "s", userId := "u", events := [], metadata := [], state := [] }

/-- C1 (amended to the identity actually used by `session.py`, the pair
`(user_id, session_id)`; `create_session` has no `app_name` parameter):
creating a session whose `(user_id, session_id)` identity already exists
fails with a `ValueError` (so the store is not modified — the error is
raised before the insert); `create_session` with an omitted `session_id`
uses the generated uuid as the new session's id, and succeeds whenever
that generated id is fresh, producing a session with an empty event log
that is subsequently visible to `get_session`; `get_session` on a
nonexistent identity returns `none` (and, being a pure lookup, never
creates anything); appending one event to a freshly created session
yields an event count of 1. -/
theorem createSession_getSession_contract
    (st : SessionStore) (u s gid : String)
    (stt md : Option (List (String × String))) (sess0 : Session) (e : PEvent)
    (hs : s ≠ "") :
    ((getSession st u s).isSome →
      createSession st u (some s) gid stt md =
        .error ("Session already exists: " ++ s)) ∧
    (getSession st u s = none →
      ∃ sess st2, createSession st u (some s) gid stt md = .ok (sess, st2) ∧
        sess.sessionId = s ∧ sess.events = [] ∧
        getSession st2 u s = some sess) ∧
    (getSession st u gid = none →
      ∃ sess st2, createSession st u none gid stt md = .ok (sess, st2) ∧
        sess.sessionId = gid ∧ sess.events = [] ∧
        getSession st2 u gid = some sess) ∧
    ((∀ x, ((u, s), x) ∉ st) → getSession st u s = none) ∧
    (sess0.events = [] → (sess0.addEvent e).events.length = 1) := by
  refine ⟨?_, ?_, ?_, ?_, ?_⟩
  · intro h
    simp only [createSession, if_neg hs]
    rw [if_pos]
    simpa [getSession] using h
  · intro h
    simp only [getSession] at h
    simp only [createSession, if_neg hs, h, Option.isSome_none, Bool.false_eq_true,
      if_false]
    refine ⟨_, _, rfl, rfl, rfl, ?_⟩
    simp only [getSession]
    rw [storeGet_append, h]
    simp [storeGet, List.find?]
  · intro h
    simp only [getSession] at h
    simp only [createSession, h, Option.isSome_none, Bool.false_eq_true, if_false]
    refine ⟨_, _, rfl, rfl, rfl, ?_⟩
    simp only [getSession]
    rw [storeGet_append, h]
    simp [storeGet, List.find?]
  · intro h
    exact storeGet_eq_none st (u, s) h
  · intro h
    simp [Session.addEvent, h]

/-- Witness for `createSession_getSession_contract`: the concrete
conclusions at a one-entry store and at the empty store. -/
theorem createSession_getSession_contract_witness :
    (createSession [(("u", "s"), freshSessUS)] "u" (some "s") "g" none none =
      .error ("Session already exists: " ++ "s")) ∧
    (∃ sess st2, createSession [] "u" (some "s") "g" none none = .ok (sess, st2) ∧
      sess.sessionId = "s" ∧ sess.events = [] ∧ getSession st2 "u" "s" = some sess) ∧
    (∃ sess st2, createSession [] "u" none "g" none none = .ok (sess, st2) ∧
      sess.sessionId = "g" ∧ sess.events = [] ∧ getSession st2 "u" "g" = some sess) ∧
    (getSession [] "u" "s" = none) ∧
    ((freshSessUS.addEvent .modelRequest).events.length = 1) := by
  have h1 := createSession_getSession_contract
    [(("u", "s"), freshSessUS)] "u" "s" "g" none none freshSessUS
    .modelRequest (by decide)
  have h2 := createSession_getSession_contract [] "u" "s" "g" none none freshSessUS
    .modelRequest (by decide)
  exact ⟨h1.1 (by decide), h2.2.1 (by decide), h2.2.2.1 (by decide),
    h2.2.2.2.1 (by intro x hx; simp at hx), h2.2.2.2.2 rfl⟩

/-- Counterexample to C1 as stated: the claim (and spec §4.4) make the
session identity the triple `(app_name, user_id, session_id)`, under
which two creations that differ only in `app_name` target distinct
identities and must both succeed — as the spec-side model
`createSessionSpecTriple` indeed does.  The `create_session` embedded
from `session.py` has no `app_name` dimension: after one creation of
`("u", "s")` (conceptually under app `"a1"`), a second creation of
`("u", "s")` (conceptually under the different app `"a2"`, an identity
triple that does not yet exist) nevertheless fails. -/
theorem createSession_no_appName_counterexample :
    (createSessionSpecTriple [] "a1" "u" "s" =
      .ok [(("a1", "u", "s"), freshSessUS)]) ∧
    (createSessionSpecTriple [(("a1", "u", "s"), freshSessUS)] "a2" "u" "s" =
      .ok [(("a1", "u", "s"), freshSessUS), (("a2", "u", "s"), freshSessUS)]) ∧
    (createSession [(("u", "s"), freshSessUS)] "u" (some "s") "gen" none none =
      .error "Session already exists: s") := by
  exact ⟨rfl, rfl, rfl⟩

/-! ## BaseAgent lifecycle (`src/tiny_adk/agents/base_agent.py`)

`run_async` first invokes the optional before-callback; a truthy result
short-circuits execution by yielding
`Event(event_type=EventType.TEXT_CHUNK, author=self.name, content=result)`.
The attribute access `EventType.TEXT_CHUNK` is modelled through
`eventTypeAttr` (raising `AttributeError`, i.e. `Except.error`, when the
member does not exist). -/

/-- Event as produced by `BaseAgent.run_async`: type, author, content. -/
structure AEvent where
  eventType : EventType
  author : Option String
  content : String
  deriving DecidableEq, Repr

/-- Embedding of the before-callback prefix of `BaseAgent.run_async`:
`callbackResult` is the (awaited) value returned by
`before_agent_callback` (`none` when no callback is configured, which the
source guards with `if self.before_agent_callback`), and `coreEvents` is
the stream `_run_async_impl` would yield.  A truthy callback result takes
the short-circuit branch, which evaluates `EventType.TEXT_CHUNK`. -/
def runAsyncBefore (agentName : String) (callbackResult : Option String)
    (coreEvents : List AEvent) : Except String (List AEvent) :=
  match callbackResult with
  | none => .ok coreEvents
  | some r =>
    if r = "" then .ok coreEvents
    else
      match eventTypeAttr "TEXT_CHUNK" with
      | some t => .ok [{ eventType := t, author := some agentName, content := r }]
      | none => .error "AttributeError: TEXT_CHUNK is not a member of EventType"

/-! ### Claim C4 -/

/-- C4 is a code bug: `EventType` (events.py lines 11-20) has no member
`TEXT_CHUNK`, so the short-circuit branch of `BaseAgent.run_async` —
taken for every before-callback returning non-empty content — raises
`AttributeError` instead of yielding one replacement-content Event.
Evaluated here at the concrete failing input of a callback returning
`"replacement content"`. -/
theorem runAsync_shortCircuit_raises :
    eventTypeAttr "TEXT_CHUNK" = none ∧
    runAsyncBefore "my_agent" (some "replacement content") [] =
      .error "AttributeError: TEXT_CHUNK is not a member of EventType" :=
  ⟨rfl, rfl⟩

/-! ## Agent tree and delegation policy (`src/tiny_adk/agents/llm_agent.py`) -/

/-- Concrete class of an agent, used for the `isinstance(·, LlmAgent)`
test in `get_transferable_agents`. -/
inductive AgentKind where
  | llmAgent
  | sequentialAgent
  | loopAgent
  deriving DecidableEq, Repr

/-- Agent tree node: name, concrete class, the two delegation-suppression
flags, and owned `sub_agents`.  (Orchestrator classes do not carry the
flags in the source; they are simply never read for them.) -/
inductive AgentNode where
  | mk (name : String) (kind : AgentKind)
      (disallowTransferToParent disallowTransferToPeers : Bool)
      (subAgents : List AgentNode)

/-- Name accessor. -/
def AgentNode.name : AgentNode → String
  | .mk n _ _ _ _ => n

/-- Kind accessor. -/
def AgentNode.kind : AgentNode → AgentKind
  | .mk _ k _ _ _ => k

/-- Accessor for `disallow_transfer_to_parent`. -/
def AgentNode.disallowTransferToParent : AgentNode → Bool
  | .mk _ _ dp _ _ => dp

/-- Accessor for `disallow_transfer_to_peers`. -/
def AgentNode.disallowTransferToPeers : AgentNode → Bool
  | .mk _ _ _ ds _ => ds

/-- Accessor for `sub_agents`. -/
def AgentNode.subAgents : AgentNode → List AgentNode
  | .mk _ _ _ _ subs => subs

/-- Embedding of `LlmAgent.get_transferable_agents`; `parentAgent` is the
node's `parent_agent` back-reference (`none` at the root).  Children are
always included; the parent only when transfer to it is allowed and it is
itself an `LlmAgent`; peers (same-parent siblings with a different name)
only under the symmetric condition. -/
def getTransferableAgents (self : AgentNode) (parentAgent : Option AgentNode) :
    List AgentNode :=
  self.subAgents
  ++ (match parentAgent with
      | some p =>
        if self.disallowTransferToParent = false ∧ p.kind = AgentKind.llmAgent
        then [p] else []
      | none => [])
  ++ (match parentAgent with
      | some p =>
        if self.disallowTransferToPeers = false ∧ p.kind = AgentKind.llmAgent
        then p.subAgents.filter (fun sibling => sibling.name ≠ self.name)
        else []
      | none => [])

/-- Agent `english` of the C9 example tree. -/
def englishA : AgentNode := .mk "english" .llmAgent false false []

/-- Agent `chinese` of the C9 example tree. -/
def chineseA : AgentNode := .mk "chinese" .llmAgent false false []

/-- Agent `language` of the C9 example tree, parent of `english` and
`chinese`. -/
def languageA : AgentNode := .mk "language" .llmAgent false false [englishA, chineseA]

/-- Variant of `language` whose class is an orchestrator
(`SequentialAgent`). -/
def languageSeqA : AgentNode :=
  .mk "language" .sequentialAgent false false [englishA, chineseA]

/-! ### Claim C9 -/

/-- C9: membership in `get_transferable_agents` is exactly: the direct
children always; the parent precisely when `disallow_transfer_to_parent`
is unset and the parent is an `LlmAgent`; a different-named sibling under
the same parent precisely when `disallow_transfer_to_peers` is unset and
the parent is an `LlmAgent`.  With an orchestrator parent the result is
the children alone.  In the example tree
root → \x7blanguage → \x7benglish, chinese\x7d, math\x7d (all `LlmAgent`,
both flags false), `english.get_transferable_agents()` is exactly
`[language, chinese]`, and with a `SequentialAgent` parent it is empty. -/
theorem getTransferableAgents_policy (self p a : AgentNode) :
    (a ∈ self.subAgents → a ∈ getTransferableAgents self (some p)) ∧
    (a ∈ getTransferableAgents self (some p) ↔
      a ∈ self.subAgents ∨
      (self.disallowTransferToParent = false ∧ p.kind = AgentKind.llmAgent ∧
        a = p) ∨
      (self.disallowTransferToPeers = false ∧ p.kind = AgentKind.llmAgent ∧
        a ∈ p.subAgents ∧ a.name ≠ self.name)) ∧
    (p.kind ≠ AgentKind.llmAgent →
      getTransferableAgents self (some p) = self.subAgents) ∧
    (getTransferableAgents englishA (some languageA) = [languageA, chineseA]) ∧
    (getTransferableAgents englishA (some languageSeqA) = []) := by
  refine ⟨?_, ?_, ?_, rfl, rfl⟩
  · intro h
    simp [getTransferableAgents, h]
  · simp only [getTransferableAgents, List.mem_append, List.mem_filter]
    constructor
    · rintro ((h | h) | h)
      · exact Or.inl h
      · split at h
        · rename_i hc
          simp only [List.mem_singleton] at h
          exact Or.inr (Or.inl ⟨hc.1, hc.2, h⟩)
        · simp at h
      · split at h
        · rename_i hc
          rw [List.mem_filter] at h
          refine Or.inr (Or.inr ⟨hc.1, hc.2, h.1, ?_⟩)
          simpa using h.2
        · simp at h
    · rintro (h | ⟨h1, h2, rfl⟩ | ⟨h1, h2, h3, h4⟩)
      · exact Or.inl (Or.inl h)
      · refine Or.inl (Or.inr ?_)
        rw [if_pos ⟨h1, h2⟩]
        simp
      · refine Or.inr ?_
        rw [if_pos ⟨h1, h2⟩, List.mem_filter]
        exact ⟨h3, by simpa using h4⟩
  · intro h
    simp only [getTransferableAgents]
    rw [if_neg (fun hc => h hc.2), if_neg (fun hc => h hc.2)]
    simp

/-- Witness for `getTransferableAgents_policy`: concrete instances of the
conditional conjuncts in the example tree. -/
theorem getTransferableAgents_policy_witness :
    (chineseA ∈ getTransferableAgents englishA (some languageA)) ∧
    (languageA ∈ getTransferableAgents englishA (some languageA)) ∧
    (getTransferableAgents englishA (some languageSeqA) = englishA.subAgents) := by
  have h := getTransferableAgents_policy englishA languageA chineseA
  have h2 := getTransferableAgents_policy englishA languageA languageA
  have h3 := getTransferableAgents_policy englishA languageSeqA englishA
  refine ⟨?_, ?_, h3.2.2.1 (by simp [languageSeqA, AgentNode.kind])⟩
  · refine h.2.1.mpr (Or.inr (Or.inr ⟨rfl, rfl, ?_, by decide⟩))
    simp [languageA, AgentNode.subAgents]
  · exact h2.2.1.mpr (Or.inr (Or.inl ⟨rfl, rfl, rfl⟩))

/-! ## Keyword memory (`src/tiny_adk/memory/in_memory_service.py`)

`_extract_words` tokenizes `text.lower()` with the regex
`[一-鿿]+|[a-zA-Z]+` (maximal runs of CJK ideographs or Latin
letters) and returns the `set` of runs.  `InMemoryService.search` scores
an entry by `|query ∩ content| / |query|`, keeps scores `≥ threshold`
and sorts by `(-score, -timestamp)` with Python's stable sort. -/

/-- Character class `[一-鿿]`. -/
def isCjkChar (c : Char) : Bool := 0x4e00 ≤ c.toNat && c.toNat ≤ 0x9fff

/-- Character class `[a-zA-Z]`. -/
def isLatinChar (c : Char) : Bool :=
  (0x61 ≤ c.toNat && c.toNat ≤ 0x7a) || (0x41 ≤ c.toNat && c.toNat ≤ 0x5a)

/-- Python `str.lower()` restricted to ASCII case mapping (the only
characters whose case matters to the two character classes). -/
def pyLower (s : String) : String := String.mk (s.toList.map Char.toLower)

/-- Maximal runs matched by `[一-鿿]+|[a-zA-Z]+`, left to right.
The fuel argument (initially the list length, consumed at least one
character per step) keeps the recursion structural so that terms
evaluate by `decide`. -/
def wordRunsAux : Nat → List Char → List (List Char)
  | 0, _ => []
  | _, [] => []
  | fuel + 1, c :: rest =>
    if isCjkChar c then
      (c :: rest.takeWhile isCjkChar) :: wordRunsAux fuel (rest.dropWhile isCjkChar)
    else if isLatinChar c then
      (c :: rest.takeWhile isLatinChar) :: wordRunsAux fuel (rest.dropWhile isLatinChar)
    else wordRunsAux fuel rest

/-- Embedding of `_extract_words`: the set of lower-cased CJK/Latin runs. -/
def extractWords (s : String) : Finset String :=
  ((wordRunsAux (pyLower s).toList.length (pyLower s).toList).map
    (fun r => String.mk r)).toFinset

/-- The `MemoryType` enum. -/
inductive MemType where
  | shortTerm
  | longTerm
  | entity
  | event
  deriving DecidableEq, Repr

/-- Embedding of `MemoryEntry` restricted to the fields `search` reads;
`timestampQ` is `timestamp.timestamp()` as an exact rational. -/
structure MemEntry where
  content : String
  memoryType : MemType
  timestampQ : ℚ
  id : Option String
  author : Option String
  sessionId : Option String
  deriving DecidableEq, Repr

/-- Score of an entry against the query word set:
`len(matches) / len(query_words)`. -/
def entryScore (queryWords : Finset String) (e : MemEntry) : ℚ :=
  ((queryWords ∩ extractWords e.content).card : ℚ) / (queryWords.card : ℚ)

/-- Embedding of the per-entry body of the `search` loop: the `continue`
filters (a truthy `session_id` argument must equal the entry's, a given
`memory_type` must equal the entry's), the empty-content-words skip, the
intersection test, and the threshold test. -/
def matchEntry (queryWords : Finset String) (threshold : ℚ)
    (sessionId : Option String) (memoryType : Option MemType) (e : MemEntry) :
    Option (ℚ × MemEntry) :=
  if (match sessionId with
      | some sid => sid != "" && e.sessionId != some sid
      | none => false) then none
  else if (match memoryType with
      | some mt => e.memoryType != mt
      | none => false) then none
  else if extractWords e.content = ∅ then none
  else if queryWords ∩ extractWords e.content = ∅ then none
  else if threshold ≤ entryScore queryWords e then
    some (entryScore queryWords e, e)
  else none

/-- Sort ordering of `matched.sort(key=lambda x: (-x[0], -x[1].timestamp.timestamp()))`:
ascending in the key tuple, i.e. score descending then timestamp
descending. -/
def scoreTsLe (a b : ℚ × MemEntry) : Bool :=
  decide (b.1 < a.1 ∨ (a.1 = b.1 ∧ b.2.timestampQ ≤ a.2.timestampQ))

/-- Embedding of `InMemoryService.search` up to the `matched` list:
entries of the user's store in insertion order are filtered and scored,
then stably sorted.  (The final `SearchResult` drops the scores and
truncates; see `searchMem`.) -/
def searchScored (entries : List MemEntry) (query : String)
    (sessionId : Option String) (memoryType : Option MemType)
    (threshold : ℚ) : List (ℚ × MemEntry) :=
  let queryWords := extractWords query
  if queryWords = ∅ then []
  else (entries.filterMap
    (matchEntry queryWords threshold sessionId memoryType)).mergeSort scoreTsLe

/-- Embedding of the returned `SearchResult`: entries of the first
`limit` matches (scores stripped) and the total match count. -/
def searchMem (entries : List MemEntry) (query : String)
    (sessionId : Option String) (memoryType : Option MemType)
    (limit : Nat) (threshold : ℚ) : List MemEntry × Nat :=
  let matched := searchScored entries query sessionId memoryType threshold
  ((matched.take limit).map (·.2), matched.length)

/-- Totality of the sort ordering. -/
theorem scoreTsLe_total (a b : ℚ × MemEntry) :
    (scoreTsLe a b || scoreTsLe b a) = true := by
  simp only [scoreTsLe, Bool.or_eq_true, decide_eq_true_eq]
  rcases lt_trichotomy a.1 b.1 with h | h | h
  · exact Or.inr (Or.inl h)
  · rcases le_total a.2.timestampQ b.2.timestampQ with ht | ht
    · exact Or.inr (Or.inr ⟨h.symm, ht⟩)
    · exact Or.inl (Or.inr ⟨h, ht⟩)
  · exact Or.inl (Or.inl h)

/-- Transitivity of the sort ordering. -/
theorem scoreTsLe_trans (a b c : ℚ × MemEntry)
    (hab : scoreTsLe a b = true) (hbc : scoreTsLe b c = true) :
    scoreTsLe a c = true := by
  simp only [scoreTsLe, decide_eq_true_eq] at *
  rcases hab with h1 | ⟨h1, h1t⟩ <;> rcases hbc with h2 | ⟨h2, h2t⟩
  · exact Or.inl (h2.trans h1)
  · exact Or.inl (h2 ▸ h1)
  · exact Or.inl (h1 ▸ h2)
  · exact Or.inr ⟨h1.trans h2, h2t.trans h1t⟩

/-- Characterization of a successful `matchEntry`. -/
theorem matchEntry_eq_some_iff (qw : Finset String) (th : ℚ)
    (sid : Option String) (mt : Option MemType) (e : MemEntry)
    (p : ℚ × MemEntry) :
    matchEntry qw th sid mt e = some p ↔
      ((∀ s, sid = some s → s ≠ "" → e.sessionId = some s) ∧
       (∀ m, mt = some m → e.memoryType = m) ∧
       extractWords e.content ≠ ∅ ∧
       qw ∩ extractWords e.content ≠ ∅ ∧
       th ≤ entryScore qw e ∧
       p = (entryScore qw e, e)) := by
  unfold matchEntry
  rcases sid with _ | s <;> rcases mt with _ | m <;>
    (repeat' split) <;>
    simp_all [bne_iff_ne] <;>
    exact eq_comm

/-- First entry of the C6 example. -/
def pyEntry1 : MemEntry :=
  { content := "用户喜欢Python编程", memoryType := .shortTerm, timestampQ := 100,
    id := none, author := none, sessionId := none }

/-- Second, more recent entry of the C6 example. -/
def pyEntry2 : MemEntry :=
  { content := "用户正在学习机器学习", memoryType := .shortTerm, timestampQ := 200,
    id := none, author := none, sessionId := none }

/-- Concrete evaluation: the first example entry matches query
`"Python"` at score 1. -/
theorem matchEntry_q1_e1 :
    matchEntry (extractWords "Python") 0 none none pyEntry1 =
      some (1, pyEntry1) := by
  have hsc : entryScore (extractWords "Python") pyEntry1 = 1 := by
    have hc1 : (extractWords "Python" ∩ extractWords pyEntry1.content).card = 1 := by
      decide
    have hc2 : (extractWords "Python").card = 1 := by decide
    rw [entryScore, hc1, hc2]
    norm_num
  refine (matchEntry_eq_some_iff _ _ _ _ _ _).mpr
    ⟨by simp, by simp, by decide, by decide, ?_, ?_⟩
  · rw [hsc]; norm_num
  · rw [hsc]

/-- Concrete evaluation: the second example entry does not match query
`"Python"`. -/
theorem matchEntry_q1_e2 :
    matchEntry (extractWords "Python") 0 none none pyEntry2 = none := by
  have h : extractWords "Python" ∩ extractWords pyEntry2.content = ∅ := by decide
  simp +decide [matchEntry, h]

/-- Concrete evaluation: the first example entry matches query
`"Python 机器学习"` at score 1/2. -/
theorem matchEntry_q2_e1 :
    matchEntry (extractWords "Python 机器学习") (1 / 2) none none pyEntry1 =
      some (1 / 2, pyEntry1) := by
  have hsc : entryScore (extractWords "Python 机器学习") pyEntry1 = 1 / 2 := by
    have hc1 :
        (extractWords "Python 机器学习" ∩ extractWords pyEntry1.content).card = 1 := by
      decide
    have hc2 : (extractWords "Python 机器学习").card = 2 := by decide
    rw [entryScore, hc1, hc2]
    norm_num
  refine (matchEntry_eq_some_iff _ _ _ _ _ _).mpr
    ⟨by simp, by simp, by decide, by decide, ?_, ?_⟩
  · rw [hsc]
  · rw [hsc]

/-- Concrete evaluation: the second example entry does not match query
`"Python 机器学习"` — its single content token is the whole CJK run. -/
theorem matchEntry_q2_e2 :
    matchEntry (extractWords "Python 机器学习") (1 / 2) none none pyEntry2 =
      none := by
  have h : extractWords "Python 机器学习" ∩ extractWords pyEntry2.content = ∅ := by
    decide
  simp +decide [matchEntry, h]

/-! ### Claim C6 -/

/-- Counterexample to C6 as stated: searching `"Python 机器学习"` with
`score_threshold = 0.5` over the two example entries returns only the
first entry (at score 1/2), not both.  The second entry's content
tokenizes to the single maximal CJK run `用户正在学习机器学习`, which is
not equal to the query token `机器学习`, so the token sets do not
intersect. -/
theorem searchMem_second_entry_not_returned :
    searchScored [pyEntry1, pyEntry2] "Python 机器学习" none none (1 / 2) =
      [(1 / 2, pyEntry1)] ∧
    extractWords "用户正在学习机器学习" = {"用户正在学习机器学习"} ∧
    (extractWords "Python 机器学习" ∩ extractWords pyEntry2.content) = ∅ := by
  have hfm : List.filterMap
      (matchEntry (extractWords "Python 机器学习") (1 / 2) none none)
      [pyEntry1, pyEntry2] = [(1 / 2, pyEntry1)] := by
    simp only [List.filterMap_cons, List.filterMap_nil, matchEntry_q2_e1, matchEntry_q2_e2]
  refine ⟨?_, by decide, by decide⟩
  simp only [searchScored]
  rw [if_neg (by decide), hfm, List.mergeSort_singleton]

/-- C6 (amended only in the outcome of the second example search, which
returns the first entry alone): keyword search matches an entry exactly
when its content has a nonempty token set intersecting the query's token
set and `|intersection| / |query tokens|` reaches the threshold (after
passing the session/type filters); results are sorted score-descending
with ties timestamp-descending; searching `"Python"` over the two
example entries returns only the first at score 1.0, and searching
`"Python 机器学习"` at threshold 0.5 returns only the first, at score
0.5. -/
theorem searchMem_keyword_scoring (entries : List MemEntry) (query : String)
    (sessionId : Option String) (memoryType : Option MemType)
    (threshold score : ℚ) (e : MemEntry) (hq : extractWords query ≠ ∅) :
    ((score, e) ∈ searchScored entries query sessionId memoryType threshold ↔
      e ∈ entries ∧
      (∀ sid, sessionId = some sid → sid ≠ "" → e.sessionId = some sid) ∧
      (∀ mt, memoryType = some mt → e.memoryType = mt) ∧
      extractWords e.content ≠ ∅ ∧
      extractWords query ∩ extractWords e.content ≠ ∅ ∧
      score = entryScore (extractWords query) e ∧
      threshold ≤ score) ∧
    List.Pairwise
      (fun a b : ℚ × MemEntry =>
        b.1 < a.1 ∨ (a.1 = b.1 ∧ b.2.timestampQ ≤ a.2.timestampQ))
      (searchScored entries query sessionId memoryType threshold) ∧
    searchScored [pyEntry1, pyEntry2] "Python" none none 0 = [(1, pyEntry1)] ∧
    searchScored [pyEntry1, pyEntry2] "Python 机器学习" none none (1 / 2) =
      [(1 / 2, pyEntry1)] := by
  refine ⟨?_, ?_, ?_, ?_⟩
  · simp only [searchScored, if_neg hq, List.mem_mergeSort, List.mem_filterMap]
    constructor
    · rintro ⟨e2, he2, hm⟩
      rw [matchEntry_eq_some_iff] at hm
      obtain ⟨h1, h2, h3, h4, h5, hp⟩ := hm
      obtain ⟨rfl, rfl⟩ : score = entryScore (extractWords query) e2 ∧ e = e2 := by
        simpa [Prod.ext_iff] using hp
      exact ⟨he2, h1, h2, h3, h4, rfl, h5⟩
    · rintro ⟨he, hsess, htype, hcw, hint, rfl, hth⟩
      exact ⟨e, he, (matchEntry_eq_some_iff _ _ _ _ _ _).mpr
        ⟨hsess, htype, hcw, hint, hth, rfl⟩⟩
  · simp only [searchScored]
    split
    · exact List.Pairwise.nil
    · refine ((List.sorted_mergeSort scoreTsLe_trans scoreTsLe_total _).imp ?_)
      intro a b h
      simpa [scoreTsLe] using h
  · have hfm : List.filterMap
        (matchEntry (extractWords "Python") 0 none none)
        [pyEntry1, pyEntry2] = [(1, pyEntry1)] := by
      simp only [List.filterMap_cons, List.filterMap_nil, matchEntry_q1_e1, matchEntry_q1_e2]
    simp only [searchScored]
    rw [if_neg (by decide), hfm, List.mergeSort_singleton]
  · have hfm : List.filterMap
        (matchEntry (extractWords "Python 机器学习") (1 / 2) none none)
        [pyEntry1, pyEntry2] = [(1 / 2, pyEntry1)] := by
      simp only [List.filterMap_cons, List.filterMap_nil, matchEntry_q2_e1, matchEntry_q2_e2]
    simp only [searchScored]
    rw [if_neg (by decide), hfm, List.mergeSort_singleton]

/-- Witness for `searchMem_keyword_scoring`: instantiating it at the
first example search yields the concrete result. -/
theorem searchMem_keyword_scoring_witness :
    searchScored [pyEntry1, pyEntry2] "Python" none none 0 = [(1, pyEntry1)] :=
  (searchMem_keyword_scoring [pyEntry1, pyEntry2] "Python" none none 0 1 pyEntry1
    (by decide)).2.2.1

/-! ## LoopAgent (`src/tiny_adk/agents/loop_agent.py`)

`LoopAgent._run_async_impl` repeats its `sub_agents` list; every yielded
event's metadata is stamped with `loop_agent` (the loop's name) and
`loop_iteration` (the 0-based pass index) before being yielded, and after
every yield `event.metadata.get('escalate')` is checked, breaking both
the inner sub-agent loop and the outer `while`.  The `while` guard
`if self.max_iterations and loop_idx >= self.max_iterations: break`
bounds the pass count whenever `max_iterations` is truthy; the embedding
below covers that truthy case, carrying the remaining pass budget
`n - loop_idx` as a structural argument (a falsy `max_iterations` — `None`
or `0` — makes the source loop unbounded and is outside claim C8). -/

/-- Metadata keys of an event that the loop reads or writes. -/
structure LMeta where
  escalate : Bool
  loopAgent : Option String
  loopIteration : Option Nat
  deriving DecidableEq, Repr

/-- Event as seen by `LoopAgent`: opaque content plus metadata. -/
structure LEvent where
  content : String
  metadata : LMeta
  deriving DecidableEq, Repr

/-- Metadata stamping performed on each yielded event:
`event.metadata['loop_agent'] = self.name` and
`event.metadata['loop_iteration'] = loop_idx`. -/
def stampLoop (name : String) (idx : Nat) (e : LEvent) : LEvent :=
  { e with metadata :=
    { e.metadata with loopAgent := some name, loopIteration := some idx } }

/-- Inner `async for` over one sub-agent's stream: stamp, yield, then
break on `metadata.get('escalate')`.  Returns the yielded events and the
escalate flag. -/
def runSub (name : String) (idx : Nat) : List LEvent → List LEvent × Bool
  | [] => ([], false)
  | e :: rest =>
    let e2 := stampLoop name idx e
    if e2.metadata.escalate then ([e2], true)
    else
      let (out, esc) := runSub name idx rest
      (e2 :: out, esc)

/-- One pass of the `for sub_agent in self.sub_agents` loop; a sub-agent
is a function from the pass index to the event stream its `run_async`
yields on that pass. -/
def runPass (name : String) (idx : Nat) :
    List (Nat → List LEvent) → List LEvent × Bool
  | [] => ([], false)
  | sub :: rest =>
    let (out, esc) := runSub name idx (sub idx)
    if esc then (out, true)
    else
      let (out2, esc2) := runPass name idx rest
      (out ++ out2, esc2)

/-- The outer `while` loop with `remaining = max_iterations - loop_idx`
passes left. -/
def loopGo (name : String) (subs : List (Nat → List LEvent)) :
    Nat → Nat → List LEvent
  | _, 0 => []
  | idx, r + 1 =>
    let (out, esc) := runPass name idx subs
    if esc then out else out ++ loopGo name subs (idx + 1) r

/-- Embedding of `LoopAgent._run_async_impl` for a truthy iteration
ceiling `n`: an empty `sub_agents` list returns immediately, otherwise
the pass loop runs from `loop_idx = 0`. -/
def loopRun (name : String) (n : Nat) (subs : List (Nat → List LEvent)) :
    List LEvent :=
  if subs.isEmpty then [] else loopGo name subs 0 n

/-- Escalation invariant of a sub-run: if the flag is false no yielded
event escalates; if it is true the escalating event is the last one. -/
def EscCut (out : List LEvent) : Bool → Prop
  | true =>
    ∃ xs e, out = xs ++ [e] ∧ e.metadata.escalate = true ∧
      ∀ x ∈ xs, x.metadata.escalate = false
  | false => ∀ x ∈ out, x.metadata.escalate = false

/-- Every event yielded while draining one sub-agent respects `EscCut`. -/
theorem runSub_escCut (name : String) (idx : Nat) :
    ∀ evs out esc, runSub name idx evs = (out, esc) → EscCut out esc := by
  intro evs
  induction evs with
  | nil =>
    intro out esc h
    obtain ⟨rfl, rfl⟩ := Prod.mk.injEq .. ▸ h
    intro x hx
    simp at hx
  | cons e rest ih =>
    intro out esc h
    simp only [runSub] at h
    split at h
    · rename_i hesc
      cases h
      exact ⟨[], stampLoop name idx e, by simp, hesc, by simp⟩
    · rename_i hesc
      rcases hr : runSub name idx rest with ⟨out2, esc2⟩
      rw [hr] at h
      cases h
      have ih2 := ih out2 esc2 hr
      cases esc2 with
      | false =>
        intro x hx
        rcases List.mem_cons.mp hx with rfl | hx
        · simpa using hesc
        · exact ih2 x hx
      | true =>
        obtain ⟨xs, e2, rfl, he2, hxs⟩ := ih2
        refine ⟨stampLoop name idx e :: xs, e2, by simp, he2, ?_⟩
        intro x hx
        rcases List.mem_cons.mp hx with rfl | hx
        · simpa using hesc
        · exact hxs x hx

/-- Concatenating an escalate-free stream in front preserves `EscCut`. -/
theorem EscCut.append_left {out1 out2 : List LEvent} {esc : Bool}
    (h1 : ∀ x ∈ out1, x.metadata.escalate = false) (h2 : EscCut out2 esc) :
    EscCut (out1 ++ out2) esc := by
  cases esc with
  | false =>
    intro x hx
    rcases List.mem_append.mp hx with hx | hx
    · exact h1 x hx
    · exact h2 x hx
  | true =>
    obtain ⟨xs, e, rfl, he, hxs⟩ := h2
    refine ⟨out1 ++ xs, e, by simp, he, ?_⟩
    intro x hx
    rcases List.mem_append.mp hx with hx | hx
    · exact h1 x hx
    · exact hxs x hx

/-- One pass over the sub-agent list respects `EscCut`. -/
theorem runPass_escCut (name : String) (idx : Nat) :
    ∀ subs out esc, runPass name idx subs = (out, esc) → EscCut out esc := by
  intro subs
  induction subs with
  | nil =>
    intro out esc h
    obtain ⟨rfl, rfl⟩ := Prod.mk.injEq .. ▸ h
    intro x hx
    simp at hx
  | cons sub rest ih =>
    intro out esc h
    simp only [runPass] at h
    rcases hs : runSub name idx (sub idx) with ⟨out1, esc1⟩
    rw [hs] at h
    have hsub := runSub_escCut name idx (sub idx) out1 esc1 hs
    cases esc1 with
    | true =>
      simp only [if_pos] at h
      cases h
      exact hsub
    | false =>
      simp only [Bool.false_eq_true, if_false] at h
      rcases hp : runPass name idx rest with ⟨out2, esc2⟩
      rw [hp] at h
      cases h
      exact EscCut.append_left hsub (ih out2 esc2 hp)

/-- The whole loop yields an escalating event only in final position. -/
theorem loopGo_escCut (name : String) (subs : List (Nat → List LEvent)) :
    ∀ r idx, ∀ x ∈ (loopGo name subs idx r).dropLast,
      x.metadata.escalate = false := by
  intro r
  induction r with
  | zero => intro idx x hx; simp [loopGo] at hx
  | succ r ih =>
    intro idx
    simp only [loopGo]
    rcases hp : runPass name idx subs with ⟨out, esc⟩
    have hpass := runPass_escCut name idx subs out esc hp
    cases esc with
    | true =>
      obtain ⟨xs, e, rfl, _, hxs⟩ := hpass
      simp only [if_pos, List.dropLast_concat]
      exact hxs
    | false =>
      simp only [Bool.false_eq_true, if_false]
      intro x hx
      cases h2 : loopGo name subs (idx + 1) r with
      | nil =>
        rw [h2, List.append_nil] at hx
        exact hpass x (List.dropLast_subset _ hx)
      | cons y l =>
        rw [h2, List.dropLast_append_cons] at hx
        rcases List.mem_append.mp hx with hx | hx
        · exact hpass x hx
        · have := ih (idx + 1) x (by rw [h2]; exact hx)
          exact this

/-- Members of the stamped output of one sub-run. -/
theorem runSub_stamped (name : String) (idx : Nat) :
    ∀ evs out esc, runSub name idx evs = (out, esc) →
      ∀ e ∈ out, e.metadata.loopAgent = some name ∧
        e.metadata.loopIteration = some idx := by
  intro evs
  induction evs with
  | nil =>
    intro out esc h
    obtain ⟨rfl, rfl⟩ := Prod.mk.injEq .. ▸ h
    intro e he
    simp at he
  | cons e0 rest ih =>
    intro out esc h
    simp only [runSub] at h
    split at h
    · cases h
      intro e he
      simp only [List.mem_singleton] at he
      subst he
      exact ⟨rfl, rfl⟩
    · rcases hr : runSub name idx rest with ⟨out2, esc2⟩
      rw [hr] at h
      cases h
      intro e he
      rcases List.mem_cons.mp he with rfl | he
      · exact ⟨rfl, rfl⟩
      · exact ih out2 esc2 hr e he

/-- Members of one pass are stamped with the pass index. -/
theorem runPass_stamped (name : String) (idx : Nat) :
    ∀ subs out esc, runPass name idx subs = (out, esc) →
      ∀ e ∈ out, e.metadata.loopAgent = some name ∧
        e.metadata.loopIteration = some idx := by
  intro subs
  induction subs with
  | nil =>
    intro out esc h
    obtain ⟨rfl, rfl⟩ := Prod.mk.injEq .. ▸ h
    intro e he
    simp at he
  | cons sub rest ih =>
    intro out esc h
    simp only [runPass] at h
    rcases hs : runSub name idx (sub idx) with ⟨out1, esc1⟩
    rw [hs] at h
    have hsub := runSub_stamped name idx (sub idx) out1 esc1 hs
    cases esc1 with
    | true =>
      simp only [if_pos] at h
      cases h
      exact hsub
    | false =>
      simp only [Bool.false_eq_true, if_false] at h
      rcases hp : runPass name idx rest with ⟨out2, esc2⟩
      rw [hp] at h
      cases h
      intro e he
      rcases List.mem_append.mp he with he | he
      · exact hsub e he
      · exact ih out2 esc2 hp e he

/-- Members of the loop output are stamped with an iteration index in
`[idx, idx + r)`. -/
theorem loopGo_stamped (name : String) (subs : List (Nat → List LEvent)) :
    ∀ r idx, ∀ e ∈ loopGo name subs idx r,
      e.metadata.loopAgent = some name ∧
      ∃ i, idx ≤ i ∧ i < idx + r ∧ e.metadata.loopIteration = some i := by
  intro r
  induction r with
  | zero => intro idx e he; simp [loopGo] at he
  | succ r ih =>
    intro idx
    simp only [loopGo]
    rcases hp : runPass name idx subs with ⟨out, esc⟩
    have hpass := runPass_stamped name idx subs out esc hp
    cases esc with
    | true =>
      simp only [if_pos]
      intro e he
      obtain ⟨h1, h2⟩ := hpass e he
      exact ⟨h1, idx, le_refl _, by omega, h2⟩
    | false =>
      simp only [Bool.false_eq_true, if_false]
      intro e he
      rcases List.mem_append.mp he with he | he
      · obtain ⟨h1, h2⟩ := hpass e he
        exact ⟨h1, idx, le_refl _, by omega, h2⟩
      · obtain ⟨h1, i, hi1, hi2, hi3⟩ := ih (idx + 1) e he
        exact ⟨h1, i, by omega, by omega, hi3⟩

/-- First sub-agent of the C8 example: two ordinary events per pass. -/
def subAgentA : Nat → List LEvent := fun _ =>
  [⟨"a1", ⟨false, none, none⟩⟩, ⟨"a2", ⟨false, none, none⟩⟩]

/-- Second sub-agent of the C8 example: escalates on its first event. -/
def subAgentB : Nat → List LEvent := fun _ =>
  [⟨"b1", ⟨true, none, none⟩⟩, ⟨"b2", ⟨false, none, none⟩⟩]

/-! ### Claim C8 -/

/-- C8: in any `LoopAgent` run (with a truthy ceiling `n`), an event
whose metadata carries `escalate=true` is never followed by a further
event; every yielded event is stamped with the loop agent's name and an
iteration index below the ceiling (so absent an escalate the loop never
exceeds `n` passes); and the two-sub-agent example whose second agent
escalates on its first event terminates after exactly one partial pass —
the three events of iteration 0 — despite the larger ceiling 5. -/
theorem loopAgent_escalate_termination (name : String) (n : Nat)
    (subs : List (Nat → List LEvent)) :
    (∀ xs e ys, loopRun name n subs = xs ++ e :: ys →
      e.metadata.escalate = true → ys = []) ∧
    (∀ e ∈ loopRun name n subs, e.metadata.loopAgent = some name ∧
      ∃ i, i < n ∧ e.metadata.loopIteration = some i) ∧
    (loopRun "loop" 5 [subAgentA, subAgentB] =
      [⟨"a1", ⟨false, some "loop", some 0⟩⟩,
       ⟨"a2", ⟨false, some "loop", some 0⟩⟩,
       ⟨"b1", ⟨true, some "loop", some 0⟩⟩]) := by
  refine ⟨?_, ?_, by decide⟩
  · intro xs e ys heq hesc
    cases ys with
    | nil => rfl
    | cons y ys2 =>
      exfalso
      have hmem : e ∈ (loopRun name n subs).dropLast := by
        rw [heq]
        have : (xs ++ e :: y :: ys2).dropLast = xs ++ (e :: y :: ys2).dropLast := by
          rw [List.dropLast_append_cons]
        rw [this]
        simp
      unfold loopRun at hmem
      split at hmem
      · simp at hmem
      · rw [loopGo_escCut name subs n 0 e hmem] at hesc
        simp at hesc
  · intro e he
    unfold loopRun at he
    split at he
    · simp at he
    · obtain ⟨h1, i, _, hi2, hi3⟩ := loopGo_stamped name subs n 0 e he
      exact ⟨h1, i, by omega, hi3⟩

/-- Witness for `loopAgent_escalate_termination`: applying it to the
concrete example run. -/
theorem loopAgent_escalate_termination_witness :
    (⟨"b1", ⟨true, some "loop", some 0⟩⟩ : LEvent) ∈
      loopRun "loop" 5 [subAgentA, subAgentB] ∧
    (∀ e ∈ loopRun "loop" 5 [subAgentA, subAgentB],
      e.metadata.loopAgent = some "loop" ∧
      ∃ i, i < 5 ∧ e.metadata.loopIteration = some i) := by
  have h := loopAgent_escalate_termination "loop" 5 [subAgentA, subAgentB]
  refine ⟨?_, h.2.1⟩
  rw [h.2.2]
  simp

/-! ## SimpleFlow reason-act loop (`src/tiny_adk/flows/simple_flow.py`)

`_reason_act_loop_stream_async` checks `iteration >= self.max_iterations`
on entry — yielding a single error event and stopping — otherwise calls
the model once, yields delta events and a final model-response event,
and, when the final response carries function calls, executes each tool
(yielding a tool-call event followed by a transfer / escalate / response /
error event) and recurses with `iteration + 1`.  `max_iterations` is the
agent's `max_iterations`, passed to `SimpleFlow` by
`LlmAgent.model_post_init`.  The embedding carries the remaining budget
`n - iteration` as a structural argument. -/

/-- Embedding of `FunctionCall` (llm_response.py): id, name, args dict. -/
structure FunctionCallF where
  id : String
  name : String
  args : List (String × String)
  deriving DecidableEq, Repr

/-- Final model response of one `llm.generate_stream_async` drain: the
delta fragments and the fields of the final (non-fragment) response. -/
structure FlowResp where
  deltas : List String
  content : String
  functionCalls : List FunctionCallF
  model : String
  thinking : String
  finishReason : String

/-- Result of a tool body, after the Flow's classification of the raw
value: a `{transfer: true, ...}` mapping, an `{escalate: true, ...}`
mapping, or any other value rendered with `str`. -/
inductive ToolResult where
  | transferSig (targetAgent reason : String)
  | escalateSig (reason : String)
  | plain (rendered : String)
  deriving DecidableEq, Repr

/-- Tool as the Flow sees it: a name and a body that either returns or
raises (`Except.error` carries the exception message). -/
structure ToolM where
  name : String
  run : List (String × String) → Except String ToolResult

/-- Events yielded by the streaming flow, one constructor per distinct
event shape built in `simple_flow.py` (the two `ERROR` shapes carry the
two distinct content dicts: `{'tool', 'error'}` and
`{'error', 'iteration'}` — the latter also records the `max_iterations`
value interpolated into its message). -/
inductive FEvent where
  | modelResponseDelta (content : String)
  | modelResponse (content author model thinking finishReason : String)
  | toolCall (id name : String) (args : List (String × String)) (author : String)
  | agentTransfer (fromAgent targetAgent reason author : String)
  | toolResponse (callId name result author : String) (escalate : Bool)
  | errorTool (tool errMsg : String)
  | errorCeiling (maxIterations iteration : Nat)
  deriving DecidableEq, Repr

/-- Embedding of `_execute_tool_stream_async`: yield the tool-call event,
look the tool up by name (no event at all when absent), then yield the
event classifying its result; a raised exception becomes a tool error
event. -/
def execToolStream (agentName : String) (tools : List ToolM)
    (fc : FunctionCallF) : List FEvent :=
  .toolCall fc.id fc.name fc.args agentName ::
  (match tools.find? (fun t => t.name = fc.name) with
   | none => []
   | some t =>
     match t.run fc.args with
     | .error msg => [.errorTool fc.name msg]
     | .ok (.transferSig target reason) =>
         [.agentTransfer agentName target reason agentName]
     | .ok (.escalateSig reason) =>
         [.toolResponse fc.id fc.name reason agentName true]
     | .ok (.plain s) => [.toolResponse fc.id fc.name s agentName false])

/-- Embedding of `_reason_act_loop_stream_async`; `r` is the remaining
iteration budget `n - iteration` (the source's entry guard
`iteration >= max_iterations` is exactly `r = 0`), and the model is a
function from the iteration number to the drained response of that
call. -/
def flowGo (n : Nat) (agentName : String) (tools : List ToolM)
    (llm : Nat → FlowResp) : Nat → Nat → List FEvent
  | iteration, 0 => [.errorCeiling n iteration]
  | iteration, r + 1 =>
    let resp := llm iteration
    (resp.deltas.map .modelResponseDelta)
    ++ [.modelResponse resp.content agentName resp.model resp.thinking
          resp.finishReason]
    ++ (if resp.functionCalls.isEmpty then []
        else (resp.functionCalls.flatMap (execToolStream agentName tools))
          ++ flowGo n agentName tools llm (iteration + 1) r)

/-- Embedding of the loop entry `_reason_act_loop_stream_async(...,
iteration=0)` for an agent with `max_iterations = n`. -/
def flowRun (n : Nat) (agentName : String) (tools : List ToolM)
    (llm : Nat → FlowResp) : List FEvent :=
  flowGo n agentName tools llm 0 n

/-- Predicate for final model-response events (one per model call). -/
def isModelResponseEv : FEvent → Bool
  | .modelResponse .. => true
  | _ => false

/-- Predicate for the iteration-ceiling error event. -/
def isCeilingErrorEv : FEvent → Bool
  | .errorCeiling .. => true
  | _ => false

/-- Tool execution yields neither model responses nor ceiling errors. -/
theorem execToolStream_no_model_no_ceiling (agentName : String)
    (tools : List ToolM) (fc : FunctionCallF) :
    ∀ e ∈ execToolStream agentName tools fc,
      isModelResponseEv e = false ∧ isCeilingErrorEv e = false := by
  intro e he
  simp only [execToolStream, List.mem_cons] at he
  rcases he with rfl | he
  · exact ⟨rfl, rfl⟩
  · rcases hf : tools.find? (fun t => t.name = fc.name) with _ | t
    · rw [hf] at he; simp at he
    · rw [hf] at he
      dsimp only at he
      rcases hr : t.run fc.args with msg | res
      · rw [hr] at he
        simp only [List.mem_singleton] at he
        subst he
        exact ⟨rfl, rfl⟩
      · rw [hr] at he
        rcases res with ⟨target, reason⟩ | reason | s <;>
          simp only [List.mem_singleton] at he <;> subst he <;> exact ⟨rfl, rfl⟩

/-- The flattened tool-execution block has zero model responses and zero
ceiling errors. -/
theorem flatMap_execToolStream_counts (agentName : String)
    (tools : List ToolM) (calls : List FunctionCallF) :
    (calls.flatMap (execToolStream agentName tools)).countP isModelResponseEv
        = 0 ∧
    (calls.flatMap (execToolStream agentName tools)).countP isCeilingErrorEv
        = 0 := by
  constructor <;>
  · rw [List.countP_eq_zero]
    intro e he
    rcases List.mem_flatMap.mp he with ⟨fc, _, he2⟩
    have := execToolStream_no_model_no_ceiling agentName tools fc e he2
    simp [this.1, this.2]

/-- Delta events contribute no model responses and no ceiling errors. -/
theorem deltas_counts (ds : List String) :
    (ds.map FEvent.modelResponseDelta).countP isModelResponseEv = 0 ∧
    (ds.map FEvent.modelResponseDelta).countP isCeilingErrorEv = 0 := by
  constructor <;>
  · rw [List.countP_eq_zero]
    intro e he
    rcases List.mem_map.mp he with ⟨d, _, rfl⟩
    simp [isModelResponseEv, isCeilingErrorEv]

/-- The loop makes at most `r` further model calls from any state. -/
theorem flowGo_model_calls_le (n : Nat) (agentName : String)
    (tools : List ToolM) (llm : Nat → FlowResp) :
    ∀ r iteration,
      (flowGo n agentName tools llm iteration r).countP isModelResponseEv ≤ r := by
  intro r
  induction r with
  | zero => intro iteration; simp [flowGo, isModelResponseEv]
  | succ r ih =>
    intro iteration
    simp only [flowGo, List.countP_append]
    rw [(deltas_counts _).1]
    split
    · simp [isModelResponseEv]
    · rw [List.countP_append, (flatMap_execToolStream_counts _ _ _).1]
      have := ih (iteration + 1)
      simp only [List.countP_cons, List.countP_nil, isModelResponseEv, if_true]
      omega

/-- When every model call up to the ceiling requests tools, the loop
runs exactly `r` more model calls and ends in the single ceiling error
event. -/
theorem flowGo_ceiling (n : Nat) (agentName : String) (tools : List ToolM)
    (llm : Nat → FlowResp) :
    ∀ r iteration,
      (∀ i, iteration ≤ i → i < iteration + r →
        (llm i).functionCalls.isEmpty = false) →
      ∃ pre, flowGo n agentName tools llm iteration r =
          pre ++ [.errorCeiling n (iteration + r)] ∧
        pre.countP isCeilingErrorEv = 0 ∧
        pre.countP isModelResponseEv = r := by
  intro r
  induction r with
  | zero =>
    intro iteration _
    exact ⟨[], by simp [flowGo], by simp, by simp⟩
  | succ r ih =>
    intro iteration hcalls
    obtain ⟨pre, hpre, hc0, hcm⟩ := ih (iteration + 1)
      (fun i h1 h2 => hcalls i (by omega) (by omega))
    refine ⟨((llm iteration).deltas.map .modelResponseDelta)
      ++ [.modelResponse (llm iteration).content agentName
            (llm iteration).model (llm iteration).thinking
            (llm iteration).finishReason]
      ++ ((llm iteration).functionCalls.flatMap (execToolStream agentName tools))
      ++ pre, ?_, ?_, ?_⟩
    · have harith : iteration + 1 + r = iteration + (r + 1) := by omega
      simp only [flowGo, hcalls iteration (le_refl _) (by omega),
        Bool.false_eq_true, if_false, hpre, harith, List.append_assoc]
    · simp only [List.countP_append, (deltas_counts _).2,
        (flatMap_execToolStream_counts _ _ _).2, hc0,
        List.countP_cons, List.countP_nil, isCeilingErrorEv]
      simp
    · simp only [List.countP_append, (deltas_counts _).1,
        (flatMap_execToolStream_counts _ _ _).1, hcm,
        List.countP_cons, List.countP_nil, isModelResponseEv, if_true]
      omega

/-- The always-iterating tool and model of the C7 concrete example. -/
def alwaysTool : ToolM :=
  { name := "t", run := fun _ => .ok (.plain "again") }

/-- Model that always requests the tool `t`. -/
def alwaysCallLlm : Nat → FlowResp := fun _ =>
  { deltas := [], content := "", functionCalls := [⟨"c0", "t", []⟩],
    model := "m", thinking := "", finishReason := "tool_calls" }

/-! ### Claim C7 -/

/-- C7: with `max_iterations = n` the streaming reason-act loop makes at
most `n` model calls (and the embedding is total, so it terminates);
when every response up to the ceiling requests tools, the loop yields its
events followed by exactly one ceiling error event — none occur earlier —
after exactly `n` model responses; and the concrete agent with
`max_iterations = 1` whose tool result always triggers another iteration
yields one model response, its tool events, and exactly one error event,
attempting no second model call. -/
theorem flow_iteration_ceiling (n : Nat) (agentName : String)
    (tools : List ToolM) (llm : Nat → FlowResp) :
    ((flowRun n agentName tools llm).countP isModelResponseEv ≤ n) ∧
    ((∀ i, i < n → (llm i).functionCalls.isEmpty = false) →
      ∃ pre, flowRun n agentName tools llm =
          pre ++ [.errorCeiling n n] ∧
        pre.countP isCeilingErrorEv = 0 ∧
        pre.countP isModelResponseEv = n) ∧
    (flowRun 1 "agent" [alwaysTool] alwaysCallLlm =
      [.modelResponse "" "agent" "m" "" "tool_calls",
       .toolCall "c0" "t" [] "agent",
       .toolResponse "c0" "t" "again" "agent" false,
       .errorCeiling 1 1]) := by
  refine ⟨flowGo_model_calls_le n agentName tools llm n 0, ?_, by decide⟩
  intro hcalls
  obtain ⟨pre, hpre, h0, hm⟩ := flowGo_ceiling n agentName tools llm n 0
    (fun i h1 h2 => hcalls i (by omega))
  exact ⟨pre, by simpa [flowRun] using hpre, h0, hm⟩

/-- Witness for `flow_iteration_ceiling`: applying it at the concrete
`max_iterations = 1` example. -/
theorem flow_iteration_ceiling_witness :
    ((flowRun 1 "agent" [alwaysTool] alwaysCallLlm).countP
        isModelResponseEv ≤ 1) ∧
    (∃ pre, flowRun 1 "agent" [alwaysTool] alwaysCallLlm =
        pre ++ [.errorCeiling 1 1] ∧
      pre.countP isCeilingErrorEv = 0 ∧
      pre.countP isModelResponseEv = 1) := by
  have h := flow_iteration_ceiling 1 "agent" [alwaysTool] alwaysCallLlm
  exact ⟨h.1, h.2.1 (fun i _ => by simp [alwaysCallLlm])⟩

/-! ## Vector memory cosine similarity
(`src/tiny_adk/memory/vector_memory_service.py`)

`_cosine_similarity` is embedded over `ℝ` (exact arithmetic in place of
IEEE floats): `sum(a * b for a, b in zip(vec1, vec2))` is the truncating
zip-product sum, `sum(x * x ...) ** 0.5` is `Real.sqrt` of the sum of
squares, and the two guards return `0.0` before any division. -/

/-- Embedding of `sum(a * b for a, b in zip(vec1, vec2))`. -/
def dotList (v w : List ℝ) : ℝ := (List.zipWith (fun a b => a * b) v w).sum

/-- Embedding of `sum(a * a for a in v)`. -/
def sumSq (v : List ℝ) : ℝ := (v.map (fun a => a * a)).sum

/-- Embedding of `sum(a * a for a in v) ** 0.5`. -/
noncomputable def norm2 (v : List ℝ) : ℝ := Real.sqrt (sumSq v)

open Classical in
/-- Embedding of `_cosine_similarity`: `0.0` on a length mismatch, `0.0`
when either norm is zero, otherwise the normalized dot product. -/
noncomputable def cosineSimilarity (v1 v2 : List ℝ) : ℝ :=
  if v1.length ≠ v2.length then 0
  else
    if norm2 v1 = 0 ∨ norm2 v2 = 0 then 0
    else dotList v1 v2 / (norm2 v1 * norm2 v2)

/-- Sums of squares are nonnegative. -/
theorem sumSq_nonneg (v : List ℝ) : 0 ≤ sumSq v := by
  induction v with
  | nil => simp [sumSq]
  | cons a v ih =>
    simp only [sumSq, List.map_cons, List.sum_cons]
    have := mul_self_nonneg a
    simp only [sumSq] at ih
    linarith

/-- Cauchy-Schwarz for the truncating zip product. -/
theorem dotList_sq_le (v : List ℝ) : ∀ w : List ℝ,
    dotList v w * dotList v w ≤ sumSq v * sumSq w := by
  induction v with
  | nil =>
    intro w
    simp only [dotList, List.zipWith_nil_left, List.sum_nil, zero_mul]
    exact mul_nonneg (sumSq_nonneg []) (sumSq_nonneg w)
  | cons a v ih =>
    intro w
    cases w with
    | nil =>
      simp only [dotList, List.zipWith_nil_right, List.sum_nil, zero_mul]
      exact mul_nonneg (sumSq_nonneg (a :: v)) (sumSq_nonneg [])
    | cons b w =>
      have hIH := ih w
      have hs1 := sumSq_nonneg v
      have hs2 := sumSq_nonneg w
      simp only [dotList, List.zipWith_cons_cons, List.sum_cons, sumSq,
        List.map_cons] at hIH ⊢
      set d := (List.zipWith (fun a b => a * b) v w).sum with hd
      set s1 := (List.map (fun a => a * a) v).sum with hs1d
      set s2 := (List.map (fun a => a * a) w).sum with hs2d
      simp only [sumSq] at hs1 hs2
      rw [← hs1d] at hs1
      rw [← hs2d] at hs2
      rcases eq_or_lt_of_le hs2 with hz | hpos
      · have hd2 : d * d = 0 := by nlinarith
        have hd0 : d = 0 := by
          by_contra hne
          exact hne (by nlinarith [mul_self_nonneg d])
        rw [hd0]
        nlinarith [mul_nonneg hs1 (mul_self_nonneg b), mul_self_nonneg (a * b)]
      · nlinarith [sq_nonneg (a * s2 - b * d),
          mul_nonneg hpos.le (sub_nonneg.mpr hIH),
          mul_nonneg (mul_self_nonneg b) (sub_nonneg.mpr hIH)]

/-- Absolute bound on the dot product by the product of norms. -/
theorem abs_dotList_le (v w : List ℝ) :
    |dotList v w| ≤ norm2 v * norm2 w := by
  have h := dotList_sq_le v w
  have : |dotList v w| = Real.sqrt (dotList v w * dotList v w) := by
    rw [← Real.sqrt_mul_self_eq_abs]
  rw [this, norm2, norm2, ← Real.sqrt_mul (sumSq_nonneg v)]
  exact Real.sqrt_le_sqrt h

/-! ### Claim C10 -/

/-- C10: `_cosine_similarity` is total and guarded — it returns `0.0`
whenever the vectors have different lengths, and whenever either vector
has zero norm (so the division is never reached with a zero
denominator); otherwise it returns `dot / (‖v1‖ * ‖v2‖)`; and in every
case the result lies in `[-1, 1]`. -/
theorem cosineSimilarity_total_guarded (v1 v2 : List ℝ) :
    (v1.length ≠ v2.length → cosineSimilarity v1 v2 = 0) ∧
    (norm2 v1 = 0 ∨ norm2 v2 = 0 → cosineSimilarity v1 v2 = 0) ∧
    (v1.length = v2.length → norm2 v1 ≠ 0 → norm2 v2 ≠ 0 →
      cosineSimilarity v1 v2 = dotList v1 v2 / (norm2 v1 * norm2 v2)) ∧
    (-1 ≤ cosineSimilarity v1 v2 ∧ cosineSimilarity v1 v2 ≤ 1) := by
  classical
  refine ⟨?_, ?_, ?_, ?_⟩
  · intro h
    simp [cosineSimilarity, h]
  · intro h
    rcases eq_or_ne v1.length v2.length with hl | hl
    · simp [cosineSimilarity, hl, h]
    · simp [cosineSimilarity, hl]
  · intro hl h1 h2
    simp [cosineSimilarity, hl, h1, h2]
  · have hbound : ∀ r : ℝ, |r| ≤ 1 → -1 ≤ r ∧ r ≤ 1 := fun r h => abs_le.mp h
    refine hbound _ ?_
    unfold cosineSimilarity
    split
    · simp
    · split
      · simp
      · rename_i hne
        push_neg at hne
        obtain ⟨h1, h2⟩ := hne
        have hp1 : 0 < norm2 v1 :=
          lt_of_le_of_ne (Real.sqrt_nonneg _) (Ne.symm h1)
        have hp2 : 0 < norm2 v2 :=
          lt_of_le_of_ne (Real.sqrt_nonneg _) (Ne.symm h2)
        rw [abs_div, abs_of_pos (mul_pos hp1 hp2)]
        rw [div_le_one (mul_pos hp1 hp2)]
        exact abs_dotList_le v1 v2

/-- Witness for `cosineSimilarity_total_guarded`: the one-element unit
vectors give similarity exactly 1, inside the bound. -/
theorem cosineSimilarity_total_guarded_witness :
    cosineSimilarity [(1 : ℝ)] [(1 : ℝ)] = 1 ∧
    -1 ≤ cosineSimilarity [(1 : ℝ)] [(1 : ℝ)] ∧
    cosineSimilarity [(1 : ℝ)] [(1 : ℝ)] ≤ 1 := by
  have h := cosineSimilarity_total_guarded [(1 : ℝ)] [(1 : ℝ)]
  have hn : norm2 [(1 : ℝ)] = 1 := by
    simp [norm2, sumSq]
  refine ⟨?_, h.2.2.2⟩
  rw [h.2.2.1 rfl (by rw [hn]; norm_num) (by rw [hn]; norm_num), hn]
  simp [dotList]

/-! ## String scanning utilities

Shared models of Python string primitives used by `openai_llm.py`:
`str.find` (first occurrence of a substring), `str.strip`, and the
specific regular expressions of the MiniMax fallback parser and the
thinking filter.  All definitions are structurally recursive so concrete
inputs evaluate by `decide` / `rfl`. -/

/-- First index at which `pat` occurs in `s` (Python `s.find(pat)` with
`none` for `-1`). -/
def findSubIdx (pat : List Char) : List Char → Option Nat
  | [] => if pat.isEmpty then some 0 else none
  | c :: rest =>
    if pat.isPrefixOf (c :: rest) then some 0
    else (findSubIdx pat rest).map (· + 1)

/-- Substring containment (`pat in s`). -/
def containsSub (pat s : List Char) : Bool := (findSubIdx pat s).isSome

/-- Python whitespace class (`\s` over the ASCII range). -/
def isPySpace (c : Char) : Bool :=
  c = ' ' || c = '\t' || c = '\n' || c = '\r' ||
  c = Char.ofNat 0x0b || c = Char.ofNat 0x0c

/-- Python `str.strip()` (whitespace from both ends). -/
def pyStrip (l : List Char) : List Char :=
  ((l.dropWhile isPySpace).reverse.dropWhile isPySpace).reverse

/-- Python regex `\w` (word character), covering the ASCII range plus
the CJK ideographs appearing in this code base. -/
def isWordChar (c : Char) : Bool :=
  isLatinChar c || c.isDigit || c = '_' || isCjkChar c

/-! ## MiniMax fallback tool-call parsing
(`src/tiny_adk/models/openai_llm.py`, `_parse_minimax_tool_calls` /
`_parse_invoke_block`)

The regexes are modelled by direct scanners with the same matching
semantics on their inputs (leftmost match, greedy `[^>]*` / `\w+` runs,
lazy `(.*?)` bodies resolved as the earliest following close token):
`findAllBetween` is `re.findall(r'<open>(.*?)</close>', s)`,
`removeAllBetween` the corresponding `re.sub(..., '')`, `findAllInvoke`
is `re.findall(r'<invoke[^>]*>(.*?)</invoke>', s)` — note its group 1
excludes the opening tag — and the `*At` helpers are anchored single
matches. -/

/-- Matches of `open(.*?)close` (fixed literal delimiters), returning
the bodies in order. -/
def findAllBetween (openT closeT : List Char) : Nat → List Char → List (List Char)
  | 0, _ => []
  | fuel + 1, s =>
    match findSubIdx openT s with
    | none => []
    | some i =>
      let afterOpen := s.drop (i + openT.length)
      match findSubIdx closeT afterOpen with
      | none => []
      | some k =>
        afterOpen.take k ::
          findAllBetween openT closeT fuel (afterOpen.drop (k + closeT.length))

/-- Removal of every `open...close` span (`re.sub(pattern, '', s)`). -/
def removeAllBetween (openT closeT : List Char) : Nat → List Char → List Char
  | 0, s => s
  | fuel + 1, s =>
    match findSubIdx openT s with
    | none => s
    | some i =>
      let afterOpen := s.drop (i + openT.length)
      match findSubIdx closeT afterOpen with
      | none => s
      | some k =>
        s.take i ++
          removeAllBetween openT closeT fuel (afterOpen.drop (k + closeT.length))

/-- Bodies (group 1) of `re.findall(r'<invoke[^>]*>(.*?)</invoke>', s)`:
after the literal `<invoke`, the greedy `[^>]*>` consumes up to and
including the first `>`, and the lazy body extends to the first
`</invoke>`. -/
def findAllInvoke : Nat → List Char → List (List Char)
  | 0, _ => []
  | fuel + 1, s =>
    match findSubIdx "<invoke".toList s with
    | none => []
    | some i =>
      let afterLit := s.drop (i + 7)
      match afterLit.findIdx? (fun c => c = '>') with
      | none => []
      | some g =>
        let body := afterLit.drop (g + 1)
        match findSubIdx "</invoke>".toList body with
        | none => []
        | some k =>
          body.take k :: findAllInvoke fuel (body.drop (k + 9))

/-- Anchored match of `<invoke\s+name="([^"]+)"` at the head of `s`,
returning the captured name. -/
def invokeNameAt (s : List Char) : Option (List Char) :=
  if "<invoke".toList.isPrefixOf s then
    let after := s.drop 7
    let ws := after.takeWhile isPySpace
    if ws.isEmpty then none
    else
      let a2 := after.dropWhile isPySpace
      if "name=\"".toList.isPrefixOf a2 then
        let nm := (a2.drop 6).takeWhile (fun c => c ≠ '"')
        if nm.isEmpty then none
        else if ((a2.drop 6).drop nm.length).isEmpty then none
        else some nm
      else none
  else none

/-- Embedding of `re.search(r'<invoke\s+name="([^"]+)"', block)`. -/
def searchInvokeName : Nat → List Char → Option (List Char)
  | 0, _ => none
  | _ + 1, [] => none
  | fuel + 1, c :: rest =>
    match invokeNameAt (c :: rest) with
    | some nm => some nm
    | none => searchInvokeName fuel rest

/-- Anchored match of
`<parameter\s+name="([^"]+)"[^>]*>(.*?)</parameter>` at the head of `s`,
returning `((name, value), matchLength)`. -/
def paramAt (s : List Char) : Option ((List Char × List Char) × Nat) :=
  if "<parameter".toList.isPrefixOf s then
    let after := s.drop 10
    let ws := after.takeWhile isPySpace
    if ws.isEmpty then none
    else
      let a2 := after.dropWhile isPySpace
      if "name=\"".toList.isPrefixOf a2 then
        let nm := (a2.drop 6).takeWhile (fun c => c ≠ '"')
        if nm.isEmpty then none
        else
          match (a2.drop 6).drop nm.length with
          | '"' :: r3 =>
            let attrs := r3.takeWhile (fun c => c ≠ '>')
            match r3.drop attrs.length with
            | '>' :: r5 =>
              match findSubIdx "</parameter>".toList r5 with
              | none => none
              | some k =>
                some ((nm, r5.take k),
                  10 + ws.length + 6 + nm.length + 1 + attrs.length + 1 + k + 12)
            | _ => none
          | _ => none
      else none
  else none

/-- Embedding of the `<parameter ...>` `re.findall` over a block. -/
def findAllParamsGo : Nat → List Char → List (List Char × List Char)
  | 0, _ => []
  | _ + 1, [] => []
  | fuel + 1, c :: rest =>
    match paramAt (c :: rest) with
    | some (pr, len) => pr :: findAllParamsGo fuel ((c :: rest).drop len)
    | none => findAllParamsGo fuel rest

/-- Anchored match of `<(\w+)>(.*?)</\1>` at the head of `s`, returning
`((tag, body), matchLength)`. -/
def tagPairAt (s : List Char) : Option ((List Char × List Char) × Nat) :=
  match s with
  | '<' :: rest =>
    let w := rest.takeWhile isWordChar
    if w.isEmpty then none
    else
      match rest.drop w.length with
      | '>' :: r2 =>
        match findSubIdx ('<' :: '/' :: (w ++ ['>'])) r2 with
        | none => none
        | some k =>
          some ((w, r2.take k), 1 + w.length + 1 + k + (2 + w.length + 1))
      | _ => none
  | _ => none

/-- Embedding of `re.search(r'<(\w+)>(.*?)</\1>', s)`. -/
def searchTagPair : Nat → List Char → Option (List Char × List Char)
  | 0, _ => none
  | _ + 1, [] => none
  | fuel + 1, c :: rest =>
    match tagPairAt (c :: rest) with
    | some (pr, _) => some pr
    | none => searchTagPair fuel rest

/-- Embedding of `re.findall(r'<(\w+)>(.*?)</\1>', s)`. -/
def findAllTagPairs : Nat → List Char → List (List Char × List Char)
  | 0, _ => []
  | _ + 1, [] => []
  | fuel + 1, c :: rest =>
    match tagPairAt (c :: rest) with
    | some (pr, len) => pr :: findAllTagPairs fuel ((c :: rest).drop len)
    | none => findAllTagPairs fuel rest

/-- Python dict insertion: an existing key keeps its position and gets
the new value, a new key is appended. -/
def dictInsert (d : List (String × String)) (k v : String) :
    List (String × String) :=
  if d.any (fun p => p.1 = k) then
    d.map (fun p => if p.1 = k then (k, v) else p)
  else d ++ [(k, v)]

/-- Fold a parameter list into a dict, stripping the values
(`{name: value.strip() for name, value in params}`). -/
def paramsToArgs (params : List (List Char × List Char)) :
    List (String × String) :=
  params.foldl
    (fun d p => dictInsert d (String.mk p.1) (String.mk (pyStrip p.2))) []

/-- Embedding of the `transfer_to_agent` parameter fix-up of
`_parse_invoke_block`: rename `agent` to `agent_name` (a popped key is
re-added at the end) and unwrap an `args` block into top-level
parameters, or use its raw text as `reason` when it has no nested
tags. -/
def transferFix (args : List (String × String)) : List (String × String) :=
  let args1 :=
    match args.find? (fun p => p.1 = "agent") with
    | some pr =>
      dictInsert (args.filter (fun p => p.1 ≠ "agent")) "agent_name" pr.2
    | none => args
  match args1.find? (fun p => p.1 = "args") with
  | some pr =>
    let base := args1.filter (fun p => p.1 ≠ "args")
    let nested := findAllTagPairs pr.2.toList.length pr.2.toList
    if nested.isEmpty then
      dictInsert base "reason" (String.mk (pyStrip pr.2.toList))
    else
      nested.foldl
        (fun d p => dictInsert d (String.mk p.1) (String.mk (pyStrip p.2))) base
  | none => args1

/-- Embedding of `_parse_invoke_block`: format A (`<invoke name="...">`
with `<parameter ...>` children, searched *inside the given block*),
else format B (nested word tags with the `transfer_to_agent` fix-up),
else `None`. -/
def parseInvokeBlock (block : List Char) (index : Nat) :
    Option FunctionCallF :=
  match searchInvokeName block.length block with
  | some nm =>
    some ⟨"call_minimax_" ++ toString index, String.mk nm,
      paramsToArgs (findAllParamsGo block.length block)⟩
  | none =>
    match searchTagPair block.length block with
    | some (w, inner) =>
      let funcName := String.mk w
      let args0 := paramsToArgs (findAllTagPairs inner.length inner)
      let args := if funcName = "transfer_to_agent" then transferFix args0
        else args0
      some ⟨"call_minimax_" ++ toString index, funcName, args⟩
    | none => none

/-- Embedding of `_parse_minimax_tool_calls`: parse every
`<minimax:tool_call>` block, then every bare `<invoke>` block of the
remaining text, numbering successful parses consecutively. -/
def parseMinimaxToolCalls (content : String) : List FunctionCallF :=
  let cl := content.toList
  let step := fun (acc : List FunctionCallF × Nat) (b : List Char) =>
    match parseInvokeBlock b acc.2 with
    | some fc => (acc.1 ++ [fc], acc.2 + 1)
    | none => acc
  let acc1 := (findAllBetween "<minimax:tool_call>".toList
    "</minimax:tool_call>".toList cl.length cl).foldl step ([], 0)
  let remaining := removeAllBetween "<minimax:tool_call>".toList
    "</minimax:tool_call>".toList cl.length cl
  ((findAllInvoke remaining.length remaining).foldl step acc1).1

/-- Embedding of `_has_xml_tool_calls`. -/
def hasXmlToolCalls (content : String) : Bool :=
  containsSub "<minimax:tool_call>".toList content.toList ||
  containsSub "<invoke>".toList content.toList ||
  containsSub "<invoke ".toList content.toList

/-- The C3 input: a bare `<invoke>` block with no standard tool_calls
field. -/
def minimaxInput : String :=
  "<invoke name=\"get_weather\"><parameter name=\"city\">Beijing</parameter></invoke>"

/-! ### Claim C3 -/

/-- C3 is a code bug: on the bare markup
`<invoke name="get_weather"><parameter name="city">Beijing</parameter></invoke>`
the fallback triggers (`_has_xml_tool_calls` is true) but the parser
returns *no* `FunctionCall` at all — the bare-invoke regex captures only
the text between the tags, so `_parse_invoke_block` receives
`<parameter name="city">Beijing</parameter>`, in which neither its
format-A regex (`<invoke\s+name=...`, the opening tag has been stripped)
nor its format-B regex (`<(\w+)>`, the parameter tag carries an
attribute) can match.  The last conjunct shows the claimed result is
exactly what `_parse_invoke_block` produces when given the full
(unstripped) markup, confirming the claim describes the intended
behavior. -/
theorem parseMinimax_bare_invoke_returns_nothing :
    hasXmlToolCalls minimaxInput = true ∧
    parseMinimaxToolCalls minimaxInput = [] ∧
    findAllInvoke minimaxInput.toList.length minimaxInput.toList =
      ["<parameter name=\"city\">Beijing</parameter>".toList] ∧
    parseInvokeBlock
      "<parameter name=\"city\">Beijing</parameter>".toList 0 = none ∧
    parseInvokeBlock minimaxInput.toList 0 =
      some ⟨"call_minimax_0", "get_weather", [("city", "Beijing")]⟩ := by
  refine ⟨by decide, by decide, ?_, by decide, by decide⟩
  decide

/-! ## Properties of substring search

Characterization of `findSubIdx` (occurrence = prefix of a drop), used
to reason about the streaming thinking filter. -/

/-- A hit of `findSubIdx` is a prefix occurrence. -/
theorem findSubIdx_some_pre {pat : List Char} :
    ∀ {s : List Char} {i : Nat}, findSubIdx pat s = some i →
      pat <+: s.drop i := by
  intro s
  induction s with
  | nil =>
    intro i h
    simp only [findSubIdx] at h
    split at h
    · rename_i hp
      cases h
      rw [List.isEmpty_iff.mp hp]
      exact List.nil_prefix
    · cases h
  | cons c rest ih =>
    intro i h
    simp only [findSubIdx] at h
    split at h
    · rename_i hp
      cases h
      rw [List.drop_zero]
      exact List.isPrefixOf_iff_prefix.mp hp
    · rcases hf : findSubIdx pat rest with _ | j
      · rw [hf] at h; cases h
      · rw [hf] at h
        rw [Option.map_some'] at h
        cases h
        exact ih hf

/-- Positions before a hit of `findSubIdx` carry no occurrence. -/
theorem findSubIdx_some_min {pat : List Char} :
    ∀ {s : List Char} {i : Nat}, findSubIdx pat s = some i →
      ∀ j, j < i → ¬ pat <+: s.drop j := by
  intro s
  induction s with
  | nil =>
    intro i h j hj
    simp only [findSubIdx] at h
    split at h
    · cases h; omega
    · cases h
  | cons c rest ih =>
    intro i h j hj
    simp only [findSubIdx] at h
    split at h
    · cases h; omega
    · rename_i hp
      rcases hf : findSubIdx pat rest with _ | k
      · rw [hf] at h; cases h
      · rw [hf, Option.map_some'] at h
        cases h
        cases j with
        | zero =>
          rw [List.drop_zero]
          intro hc
          rw [← List.isPrefixOf_iff_prefix] at hc
          rw [hc] at hp
          exact absurd rfl hp
        | succ j2 => exact ih hf j2 (by omega)

/-- A miss of `findSubIdx` means no occurrence anywhere (for a nonempty
pattern). -/
theorem findSubIdx_none {pat : List Char} (hpat : pat ≠ []) :
    ∀ {s : List Char}, findSubIdx pat s = none →
      ∀ j, ¬ pat <+: s.drop j := by
  intro s
  induction s with
  | nil =>
    intro _ j hc
    rw [List.drop_nil] at hc
    exact hpat (List.prefix_nil.mp hc)
  | cons c rest ih =>
    intro h j
    simp only [findSubIdx] at h
    split at h
    · cases h
    · rename_i hp
      cases j with
      | zero =>
        rw [List.drop_zero]
        intro hc
        rw [← List.isPrefixOf_iff_prefix] at hc
        rw [hc] at hp
        exact absurd rfl hp
      | succ j2 =>
        rcases hf : findSubIdx pat rest with _ | k
        · exact ih hf j2
        · rw [hf, Option.map_some'] at h; cases h

/-- A hit fits inside the string. -/
theorem findSubIdx_some_bound {pat : List Char} (hpat : pat ≠ [])
    {s : List Char} {i : Nat} (h : findSubIdx pat s = some i) :
    i + pat.length ≤ s.length := by
  have hp := findSubIdx_some_pre h
  have hlen := hp.length_le
  rw [List.length_drop] at hlen
  have hl : 0 < pat.length := List.length_pos.mpr hpat
  rcases Nat.lt_or_ge i s.length with hi | hi
  · omega
  · exfalso
    rw [List.drop_eq_nil_of_le hi] at hp
    exact hpat (List.prefix_nil.mp hp)

/-- Introduction rule: a prefix occurrence at `i` with no earlier one
is the hit. -/
theorem findSubIdx_eq_some {pat : List Char} :
    ∀ {s : List Char} {i : Nat}, pat <+: s.drop i →
      (∀ j, j < i → ¬ pat <+: s.drop j) →
      findSubIdx pat s = some i := by
  intro s
  induction s with
  | nil =>
    intro i hp hmin
    rw [List.drop_nil] at hp
    have hpe : pat = [] := List.prefix_nil.mp hp
    cases i with
    | zero => simp [findSubIdx, hpe]
    | succ i2 =>
      exfalso
      refine hmin 0 (by omega) ?_
      rw [List.drop_nil, hpe]
  | cons c rest ih =>
    intro i hp hmin
    cases i with
    | zero =>
      rw [List.drop_zero] at hp
      simp [findSubIdx, List.isPrefixOf_iff_prefix.mpr hp]
    | succ i2 =>
      have h0 : ¬ pat <+: (c :: rest) := by
        have := hmin 0 (by omega)
        rwa [List.drop_zero] at this
      simp only [findSubIdx]
      rw [if_neg (fun hc => h0 (List.isPrefixOf_iff_prefix.mp hc))]
      rw [ih hp (fun j hj => hmin (j + 1) (by omega))]
      rfl

/-- Introduction rule for a miss. -/
theorem findSubIdx_eq_none {pat : List Char} :
    ∀ {s : List Char}, (∀ j, ¬ pat <+: s.drop j) →
      findSubIdx pat s = none := by
  intro s
  induction s with
  | nil =>
    intro h
    simp only [findSubIdx]
    rw [if_neg]
    intro hpe
    refine h 0 ?_
    rw [List.drop_nil, List.isEmpty_iff.mp hpe]
  | cons c rest ih =>
    intro h
    have h0 : ¬ pat <+: (c :: rest) := by
      have := h 0
      rwa [List.drop_zero] at this
    simp only [findSubIdx]
    rw [if_neg (fun hc => h0 (List.isPrefixOf_iff_prefix.mp hc))]
    rw [ih (fun j => h (j + 1))]
    rfl

/-- A prefix test confined to the left part of an append ignores the
right part. -/
theorem prefix_append_inside {pat b : List Char} (f : List Char)
    {j : Nat} (hj : j + pat.length ≤ b.length) :
    (pat <+: (b ++ f).drop j ↔ pat <+: b.drop j) := by
  rw [List.drop_append_of_le_length (by omega)]
  constructor
  · intro h
    rw [List.prefix_iff_eq_take] at h ⊢
    rwa [List.take_append_of_le_length
      (by rw [List.length_drop]; omega)] at h
  · intro h
    exact h.trans (List.prefix_append _ f)

/-- Shifting `findSubIdx` past an occurrence-free region. -/
theorem findSubIdx_shift {pat : List Char} :
    ∀ (m : Nat) (s : List Char),
      (∀ j, j < m → ¬ pat <+: s.drop j) →
      findSubIdx pat s = (findSubIdx pat (s.drop m)).map (· + m) := by
  intro m
  induction m with
  | zero =>
    intro s _
    rw [List.drop_zero]
    cases findSubIdx pat s <;> simp
  | succ m2 ih =>
    intro s h
    cases s with
    | nil =>
      have hpat : pat ≠ [] := by
        intro hpe
        refine h 0 (by omega) ?_
        rw [List.drop_nil, hpe]
      simp only [findSubIdx, List.drop_nil]
      rw [if_neg (by simpa [List.isEmpty_iff] using hpat)]
      rfl
    | cons c rest =>
      have h0 : ¬ pat <+: (c :: rest) := by
        have := h 0 (by omega)
        rwa [List.drop_zero] at this
      simp only [findSubIdx]
      rw [if_neg (fun hc => h0 (List.isPrefixOf_iff_prefix.mp hc))]
      rw [ih rest (fun j hj => h (j + 1) (by omega))]
      show ((findSubIdx pat (rest.drop m2)).map (· + m2)).map (· + 1) = _
      have hdrop : (c :: rest).drop (m2 + 1) = rest.drop m2 := rfl
      rw [hdrop]
      cases findSubIdx pat (rest.drop m2)
      · simp
      · simp
        omega

/-! ## Streaming thinking filter
(`src/tiny_adk/models/openai_llm.py`, class `ThinkingFilter`)

`semScan` is the reference semantics of thinking-span separation on the
complete output string, written from the spec's words ("emits as visible
output only the text outside `<think>...</think>` spans and accumulates
the text inside them as thinking"); the filter itself is embedded below
as `drain` / `processDelta` / `finalizeTF` and proved to compute
`semScan` of the concatenated input regardless of chunking. -/

/-- Literal `'<think>'`. -/
def thinkOpen : List Char := "<think>".toList

/-- Literal `'</think>'`. -/
def thinkClose : List Char := "</think>".toList

/-- Reference span semantics: in visible mode cut at the first
`<think>`, in thinking mode cut at the first `</think>` (an unterminated
span is all thinking).  Returns `(visible, thinking)`. -/
def semScan (mode : Bool) (s : List Char) : List Char × List Char :=
  match mode with
  | false =>
    match hf : findSubIdx thinkOpen s with
    | none => (s, [])
    | some i =>
      have hlt : s.length - (i + 7) < s.length := by
        have hb := findSubIdx_some_bound (by decide) hf
        have h7 : thinkOpen.length = 7 := rfl
        omega
      let r := semScan true (s.drop (i + 7))
      (s.take i ++ r.1, r.2)
  | true =>
    match hf : findSubIdx thinkClose s with
    | none => ([], s)
    | some i =>
      have hlt : s.length - (i + 8) < s.length := by
        have hb := findSubIdx_some_bound (by decide) hf
        have h8 : thinkClose.length = 8 := rfl
        omega
      let r := semScan false (s.drop (i + 8))
      (r.1, s.take i ++ r.2)
  termination_by s.length
  decreasing_by
  · simpa using hlt
  · simpa using hlt

/-- Unfolding `semScan` in visible mode at a miss. -/
theorem semScan_false_none {s : List Char}
    (h : findSubIdx thinkOpen s = none) : semScan false s = (s, []) := by
  conv_lhs => rw [semScan]
  split <;> simp_all

/-- Unfolding `semScan` in visible mode at a hit. -/
theorem semScan_false_some {s : List Char} {i : Nat}
    (h : findSubIdx thinkOpen s = some i) :
    semScan false s = (s.take i ++ (semScan true (s.drop (i + 7))).1,
      (semScan true (s.drop (i + 7))).2) := by
  conv_lhs => rw [semScan]
  split
  · simp_all
  · rename_i j hj
    rw [h] at hj
    cases hj
    rfl

/-- Unfolding `semScan` in thinking mode at a miss. -/
theorem semScan_true_none {s : List Char}
    (h : findSubIdx thinkClose s = none) : semScan true s = ([], s) := by
  conv_lhs => rw [semScan]
  split <;> simp_all

/-- Unfolding `semScan` in thinking mode at a hit. -/
theorem semScan_true_some {s : List Char} {i : Nat}
    (h : findSubIdx thinkClose s = some i) :
    semScan true s = ((semScan false (s.drop (i + 8))).1,
      s.take i ++ (semScan false (s.drop (i + 8))).2) := by
  conv_lhs => rw [semScan]
  split
  · simp_all
  · rename_i j hj
    rw [h] at hj
    cases hj
    rfl

/-- Scanning in visible mode may skip past any occurrence-free region:
the skipped text is visible and the scan continues on the rest. -/
theorem semScan_false_skip (b f : List Char) (m : Nat) (hm : m ≤ b.length)
    (h : ∀ j, j < m → ¬ thinkOpen <+: (b ++ f).drop j) :
    semScan false (b ++ f) =
      (b.take m ++ (semScan false (b.drop m ++ f)).1,
        (semScan false (b.drop m ++ f)).2) := by
  have hshift := findSubIdx_shift m (b ++ f) h
  rw [List.drop_append_of_le_length hm] at hshift
  rcases hf : findSubIdx thinkOpen (b.drop m ++ f) with _ | r
  · rw [hf, Option.map_none'] at hshift
    rw [semScan_false_none hshift, semScan_false_none hf]
    simp only [Prod.mk.injEq]
    refine ⟨?_, trivial⟩
    rw [← List.append_assoc, List.take_append_drop]
  · rw [hf, Option.map_some'] at hshift
    rw [semScan_false_some hshift, semScan_false_some hf]
    have hdrop : (b ++ f).drop (r + m + 7) = (b.drop m ++ f).drop (r + 7) := by
      rw [← List.drop_append_of_le_length hm, List.drop_drop]
      congr 1
      omega
    have htake : (b ++ f).take (r + m) =
        b.take m ++ (b.drop m ++ f).take r := by
      have : r + m = m + r := by omega
      rw [this, List.take_add, List.take_append_of_le_length hm,
        List.drop_append_of_le_length hm]
    rw [hdrop, htake, List.append_assoc]

/-- Scanning in thinking mode may skip past any occurrence-free region:
the skipped text is thinking and the scan continues on the rest. -/
theorem semScan_true_skip (b f : List Char) (m : Nat) (hm : m ≤ b.length)
    (h : ∀ j, j < m → ¬ thinkClose <+: (b ++ f).drop j) :
    semScan true (b ++ f) =
      ((semScan true (b.drop m ++ f)).1,
        b.take m ++ (semScan true (b.drop m ++ f)).2) := by
  have hshift := findSubIdx_shift m (b ++ f) h
  rw [List.drop_append_of_le_length hm] at hshift
  rcases hf : findSubIdx thinkClose (b.drop m ++ f) with _ | r
  · rw [hf, Option.map_none'] at hshift
    rw [semScan_true_none hshift, semScan_true_none hf]
    simp only [Prod.mk.injEq]
    refine ⟨trivial, ?_⟩
    rw [← List.append_assoc, List.take_append_drop]
  · rw [hf, Option.map_some'] at hshift
    rw [semScan_true_some hshift, semScan_true_some hf]
    have hdrop : (b ++ f).drop (r + m + 8) = (b.drop m ++ f).drop (r + 8) := by
      rw [← List.drop_append_of_le_length hm, List.drop_drop]
      congr 1
      omega
    have htake : (b ++ f).take (r + m) =
        b.take m ++ (b.drop m ++ f).take r := by
      have : r + m = m + r := by omega
      rw [this, List.take_add, List.take_append_of_le_length hm,
        List.drop_append_of_le_length hm]
    rw [hdrop, htake, List.append_assoc]

/-- An occurrence inside the left part survives an append on the
right. -/
theorem findSubIdx_append_left {pat : List Char} (hpat : pat ≠ [])
    {b : List Char} {i : Nat} (f : List Char)
    (h : findSubIdx pat b = some i) : findSubIdx pat (b ++ f) = some i := by
  have hbound := findSubIdx_some_bound hpat h
  refine findSubIdx_eq_some ?_ ?_
  · exact (prefix_append_inside f hbound).mpr (findSubIdx_some_pre h)
  · intro j hj hc
    have hjb : j + pat.length ≤ b.length := by omega
    exact findSubIdx_some_min h j hj ((prefix_append_inside f hjb).mp hc)

/-- A miss survives dropping a prefix. -/
theorem findSubIdx_none_drop {pat : List Char} (hpat : pat ≠ [])
    {b : List Char} (h : findSubIdx pat b = none) (m : Nat) :
    findSubIdx pat (b.drop m) = none := by
  refine findSubIdx_eq_none (fun j hc => ?_)
  rw [List.drop_drop] at hc
  exact findSubIdx_none hpat h (m + j) hc

/-- State of `ThinkingFilter`: the four instance attributes. -/
structure TFState where
  buffer : List Char
  inThinking : Bool
  thinkingContent : List Char
  cleanContent : List Char
  deriving DecidableEq, Repr

/-- The `ThinkingFilter()` constructor. -/
def initTF : TFState := ⟨[], false, [], []⟩

/-- The `while self.buffer:` loop of `process_delta`, returning the new
state and the emitted output.  The fuel argument (at least the buffer
length; each continuing iteration consumes at least seven characters)
keeps the recursion structural.  Branches mirror the source: outside a
span, a found `<think>` emits the text before it and switches mode; no
find with more than 10 buffered characters emits all but the last 7 and
breaks; otherwise the loop breaks.  Inside a span the symmetric branches
accumulate thinking with an 8-character lookback. -/
def drain : Nat → TFState → TFState × List Char
  | 0, st => (st, [])
  | fuel + 1, st =>
    if st.buffer.isEmpty then (st, [])
    else
      match st.inThinking with
      | false =>
        match findSubIdx thinkOpen st.buffer with
        | some i =>
          let outPart := st.buffer.take i
          let st2 := { st with
            cleanContent := st.cleanContent ++ outPart
            buffer := st.buffer.drop (i + 7)
            inThinking := true }
          let r := drain fuel st2
          (r.1, outPart ++ r.2)
        | none =>
          if st.buffer.length > 10 then
            let outPart := st.buffer.take (st.buffer.length - 7)
            ({ st with
                cleanContent := st.cleanContent ++ outPart
                buffer := st.buffer.drop (st.buffer.length - 7) }, outPart)
          else (st, [])
      | true =>
        match findSubIdx thinkClose st.buffer with
        | some i =>
          drain fuel { st with
            thinkingContent := st.thinkingContent ++ st.buffer.take i
            buffer := st.buffer.drop (i + 8)
            inThinking := false }
        | none =>
          if st.buffer.length > 10 then
            ({ st with
                thinkingContent := st.thinkingContent ++
                  st.buffer.take (st.buffer.length - 8)
                buffer := st.buffer.drop (st.buffer.length - 8) }, [])
          else (st, [])

/-- Invariants of one drain: the clean content accumulates exactly the
emitted output; emitted output plus the reference scan of the residual
state equals the reference scan of the pre-state (for any future input,
both for the visible and for the thinking projection); and the residual
buffer contains no full tag of the residual mode. -/
theorem drain_spec : ∀ (fuel : Nat) (st : TFState),
    st.buffer.length ≤ fuel →
    ((drain fuel st).1.cleanContent =
      st.cleanContent ++ (drain fuel st).2) ∧
    (∀ f, (drain fuel st).2 ++
        (semScan (drain fuel st).1.inThinking ((drain fuel st).1.buffer ++ f)).1
      = (semScan st.inThinking (st.buffer ++ f)).1) ∧
    (∀ f, (drain fuel st).1.thinkingContent ++
        (semScan (drain fuel st).1.inThinking ((drain fuel st).1.buffer ++ f)).2
      = st.thinkingContent ++ (semScan st.inThinking (st.buffer ++ f)).2) ∧
    ((drain fuel st).1.inThinking = false →
      findSubIdx thinkOpen (drain fuel st).1.buffer = none) ∧
    ((drain fuel st).1.inThinking = true →
      findSubIdx thinkClose (drain fuel st).1.buffer = none) := by
  intro fuel
  induction fuel with
  | zero =>
    intro st hst
    have hbuf : st.buffer = [] := List.eq_nil_of_length_eq_zero (by omega)
    refine ⟨by simp [drain], fun f => by simp [drain], fun f => by simp [drain],
      ?_, ?_⟩ <;>
    · intro _
      simp only [drain, hbuf]
      decide
  | succ fuel ih =>
    intro st hst
    rcases hbe : st.buffer.isEmpty with _ | _
    case true =>
      have hbuf : st.buffer = [] := List.isEmpty_iff.mp hbe
      refine ⟨by simp [drain, hbe], fun f => by simp [drain, hbe],
        fun f => by simp [drain, hbe], ?_, ?_⟩ <;>
      · intro _
        simp only [drain, hbe, if_true]
        rw [hbuf]
        decide
    case false =>
      have hlen0 : 0 < st.buffer.length := by
        rcases hn : st.buffer with _ | _
        · rw [hn] at hbe; simp at hbe
        · simp [hn]
      rcases hmode : st.inThinking with _ | _
      case false =>
        rcases hfind : findSubIdx thinkOpen st.buffer with _ | i
        case none =>
          have hnone := findSubIdx_none (show thinkOpen ≠ [] by decide) hfind
          rcases hgt : decide (st.buffer.length > 10) with _ | _
          case false =>
            have hle : ¬ st.buffer.length > 10 := of_decide_eq_false hgt
            have hdr : drain (fuel + 1) st = (st, []) := by
              simp [drain, hbe, hmode, hfind, hle]
            rw [hdr]
            exact ⟨by simp, fun f => by simp [hmode], fun f => by simp [hmode],
              fun _ => hfind, fun hc => by simp [hmode] at hc⟩
          case true =>
            have hgt2 : st.buffer.length > 10 := of_decide_eq_true hgt
            have hdr : drain (fuel + 1) st =
                ({ st with
                    cleanContent := st.cleanContent ++
                      st.buffer.take (st.buffer.length - 7)
                    buffer := st.buffer.drop (st.buffer.length - 7) },
                  st.buffer.take (st.buffer.length - 7)) := by
              simp [drain, hbe, hmode, hfind, hgt2]
            rw [hdr]
            have hskip : ∀ f, semScan false (st.buffer ++ f) =
                (st.buffer.take (st.buffer.length - 7) ++
                  (semScan false (st.buffer.drop (st.buffer.length - 7) ++ f)).1,
                 (semScan false
                   (st.buffer.drop (st.buffer.length - 7) ++ f)).2) := by
              intro f
              refine semScan_false_skip st.buffer f (st.buffer.length - 7)
                (by omega) (fun j hj hc => ?_)
              have h7 : thinkOpen.length = 7 := rfl
              have hjb : j + thinkOpen.length ≤ st.buffer.length := by omega
              exact hnone j ((prefix_append_inside f hjb).mp hc)
            refine ⟨rfl, fun f => ?_, fun f => ?_, fun _ => ?_, fun hc => ?_⟩
            · rw [hmode, hskip f]
            · rw [hmode, hskip f]
            · exact findSubIdx_none_drop (by decide) hfind _
            · rw [hmode] at hc; cases hc
        case some =>
          have hbound := findSubIdx_some_bound
            (show thinkOpen ≠ [] by decide) hfind
          have h7 : thinkOpen.length = 7 := rfl
          set st2 : TFState := { st with
            cleanContent := st.cleanContent ++ st.buffer.take i
            buffer := st.buffer.drop (i + 7)
            inThinking := true } with hst2
          have hdr : drain (fuel + 1) st =
              ((drain fuel st2).1, st.buffer.take i ++ (drain fuel st2).2) := by
            simp [drain, hbe, hmode, hfind, hst2]
          have hlen2 : st2.buffer.length ≤ fuel := by
            rw [hst2]
            simp only [List.length_drop]
            omega
          obtain ⟨iha, ihb, ihc, ihd, ihe⟩ := ih st2 hlen2
          rw [hdr]
          have hsplit : ∀ f, semScan false (st.buffer ++ f) =
              (st.buffer.take i ++
                (semScan true (st.buffer.drop (i + 7) ++ f)).1,
               (semScan true (st.buffer.drop (i + 7) ++ f)).2) := by
            intro f
            have happ := findSubIdx_append_left
              (show thinkOpen ≠ [] by decide) f hfind
            rw [semScan_false_some happ]
            rw [List.take_append_of_le_length (by omega),
              List.drop_append_of_le_length (by omega)]
          refine ⟨?_, fun f => ?_, fun f => ?_, ihd, ihe⟩
          · dsimp only
            rw [iha, hst2]
            simp [List.append_assoc]
          · dsimp only
            rw [hsplit f, List.append_assoc, ihb f, hst2]
          · dsimp only
            rw [ihc f, hsplit f, hst2]
      case true =>
        rcases hfind : findSubIdx thinkClose st.buffer with _ | i
        case none =>
          have hnone := findSubIdx_none (show thinkClose ≠ [] by decide) hfind
          rcases hgt : decide (st.buffer.length > 10) with _ | _
          case false =>
            have hle : ¬ st.buffer.length > 10 := of_decide_eq_false hgt
            have hdr : drain (fuel + 1) st = (st, []) := by
              simp [drain, hbe, hmode, hfind, hle]
            rw [hdr]
            exact ⟨by simp, fun f => by simp [hmode], fun f => by simp [hmode],
              fun hc => by simp [hmode] at hc, fun _ => hfind⟩
          case true =>
            have hgt2 : st.buffer.length > 10 := of_decide_eq_true hgt
            have hdr : drain (fuel + 1) st =
                ({ st with
                    thinkingContent := st.thinkingContent ++
                      st.buffer.take (st.buffer.length - 8)
                    buffer := st.buffer.drop (st.buffer.length - 8) }, []) := by
              simp [drain, hbe, hmode, hfind, hgt2]
            rw [hdr]
            have hskip : ∀ f, semScan true (st.buffer ++ f) =
                ((semScan true
                    (st.buffer.drop (st.buffer.length - 8) ++ f)).1,
                 st.buffer.take (st.buffer.length - 8) ++
                  (semScan true
                    (st.buffer.drop (st.buffer.length - 8) ++ f)).2) := by
              intro f
              refine semScan_true_skip st.buffer f (st.buffer.length - 8)
                (by omega) (fun j hj hc => ?_)
              have h8 : thinkClose.length = 8 := rfl
              have hjb : j + thinkClose.length ≤ st.buffer.length := by omega
              exact hnone j ((prefix_append_inside f hjb).mp hc)
            refine ⟨by simp, fun f => ?_, fun f => ?_, fun hc => ?_, fun _ => ?_⟩
            · simp [hmode, hskip f]
            · simp [hmode, hskip f]
            · simp [hmode] at hc
            · exact findSubIdx_none_drop (by decide) hfind _
        case some =>
          have hbound := findSubIdx_some_bound
            (show thinkClose ≠ [] by decide) hfind
          have h8 : thinkClose.length = 8 := rfl
          set st2 : TFState := { st with
            thinkingContent := st.thinkingContent ++ st.buffer.take i
            buffer := st.buffer.drop (i + 8)
            inThinking := false } with hst2
          have hdr : drain (fuel + 1) st = drain fuel st2 := by
            simp [drain, hbe, hmode, hfind, hst2]
          have hlen2 : st2.buffer.length ≤ fuel := by
            rw [hst2]
            simp only [List.length_drop]
            omega
          obtain ⟨iha, ihb, ihc, ihd, ihe⟩ := ih st2 hlen2
          rw [hdr]
          have hsplit : ∀ f, semScan true (st.buffer ++ f) =
              ((semScan false (st.buffer.drop (i + 8) ++ f)).1,
               st.buffer.take i ++
                (semScan false (st.buffer.drop (i + 8) ++ f)).2) := by
            intro f
            have happ := findSubIdx_append_left
              (show thinkClose ≠ [] by decide) f hfind
            rw [semScan_true_some happ]
            rw [List.take_append_of_le_length (by omega),
              List.drop_append_of_le_length (by omega)]
          refine ⟨iha, fun f => ?_, fun f => ?_, ihd, ihe⟩
          · rw [hsplit f, ihb f, hst2]
          · rw [ihc f, hsplit f, hst2]
            simp [List.append_assoc]

/-- Embedding of `ThinkingFilter.process_delta`: append the delta to the
buffer and run the drain loop (the new buffer length is enough fuel,
since every continuing iteration consumes at least seven characters). -/
def processDelta (st : TFState) (delta : List Char) : TFState × List Char :=
  drain (st.buffer ++ delta).length { st with buffer := st.buffer ++ delta }

/-- Feeding a chunk sequence through the filter, collecting the emitted
output. -/
def runChunks : TFState → List (List Char) → TFState × List Char
  | st, [] => (st, [])
  | st, d :: rest =>
    let r1 := processDelta st d
    let r2 := runChunks r1.1 rest
    (r2.1, r1.2 ++ r2.2)

/-- Embedding of `ThinkingFilter.finalize`: flush the residual buffer
(to thinking inside a span, to clean content and the returned remainder
outside) and return the stripped clean content, the stripped thinking
content, and the remainder. -/
def finalizeTF (st : TFState) : List Char × List Char × List Char :=
  if st.buffer.isEmpty then
    (pyStrip st.cleanContent, pyStrip st.thinkingContent, [])
  else if st.inThinking then
    (pyStrip st.cleanContent, pyStrip (st.thinkingContent ++ st.buffer), [])
  else
    (pyStrip (st.cleanContent ++ st.buffer), pyStrip st.thinkingContent,
      st.buffer)

/-- Residual-buffer invariant after a drain: no full tag of the current
mode is left in the buffer. -/
def NoTagSt (st : TFState) : Prop :=
  (st.inThinking = false → findSubIdx thinkOpen st.buffer = none) ∧
  (st.inThinking = true → findSubIdx thinkClose st.buffer = none)

/-- Chunk-fold version of `drain_spec`: the output collected over any
chunk list, continued by the reference scan of the residual state,
equals the reference scan of all input; thinking and clean content
accumulate correspondingly, and the residual buffer holds no full
tag. -/
theorem runChunks_spec : ∀ (chunks : List (List Char)) (st : TFState) (f : List Char),
    ((runChunks st chunks).2 ++
        (semScan (runChunks st chunks).1.inThinking
          ((runChunks st chunks).1.buffer ++ f)).1
      = (semScan st.inThinking (st.buffer ++ (chunks.flatten ++ f))).1) ∧
    ((runChunks st chunks).1.thinkingContent ++
        (semScan (runChunks st chunks).1.inThinking
          ((runChunks st chunks).1.buffer ++ f)).2
      = st.thinkingContent ++
        (semScan st.inThinking (st.buffer ++ (chunks.flatten ++ f))).2) ∧
    ((runChunks st chunks).1.cleanContent =
      st.cleanContent ++ (runChunks st chunks).2) ∧
    (NoTagSt st → NoTagSt (runChunks st chunks).1) := by
  intro chunks
  induction chunks with
  | nil =>
    intro st f
    refine ⟨?_, ?_, by simp [runChunks], fun h => h⟩ <;>
      simp [runChunks]
  | cons d rest ih =>
    intro st f
    obtain ⟨da, db, dc, dd, de⟩ :=
      drain_spec (st.buffer ++ d).length { st with buffer := st.buffer ++ d }
        (le_refl _)
    obtain ⟨ia, ib, ic, id2⟩ := ih (processDelta st d).1 f
    have hNoTag : NoTagSt (processDelta st d).1 := ⟨dd, de⟩
    have hrc : runChunks st (d :: rest) =
        ((runChunks (processDelta st d).1 rest).1,
          (processDelta st d).2 ++ (runChunks (processDelta st d).1 rest).2) :=
      rfl
    rw [hrc]
    dsimp only
    refine ⟨?_, ?_, ?_, fun _ => id2 hNoTag⟩
    · rw [List.append_assoc, ia]
      have := db (rest.flatten ++ f)
      simp only [processDelta] at this ⊢
      rw [this]
      simp [List.append_assoc]
    · rw [ib]
      have := dc (rest.flatten ++ f)
      simp only [processDelta] at this ⊢
      rw [this]
      simp [List.append_assoc]
    · rw [ic]
      have := da
      simp only [processDelta] at this ⊢
      rw [this]
      simp [List.append_assoc]

/-- The C5 chunk sequence. -/
def chunksC5 : List (List Char) :=
  ["hello ".toList, "<thi".toList, "nk>secret</thi".toList, "nk> world".toList]

/-! ### Claim C5 -/

/-- C5: for every chunking of the model output, the streaming filter's
emitted output followed by the finalize remainder is exactly the text
outside `<think>...</think>` spans of the concatenated output, the
finalized clean content is that same text stripped, and the finalized
thinking text is the stripped concatenation of the text inside the
spans — tag splits across chunk boundaries included; in particular
feeding `["hello ", "<thi", "nk>secret</thi", "nk> world"]` yields
visible output `"hello  world"` (emitted plus remainder) and finalized
thinking text `"secret"`. -/
theorem thinkingFilter_chunking_correct (chunks : List (List Char)) :
    ((runChunks initTF chunks).2 ++
        (finalizeTF (runChunks initTF chunks).1).2.2
      = (semScan false chunks.flatten).1) ∧
    ((finalizeTF (runChunks initTF chunks).1).1
      = pyStrip (semScan false chunks.flatten).1) ∧
    ((finalizeTF (runChunks initTF chunks).1).2.1
      = pyStrip (semScan false chunks.flatten).2) ∧
    ((runChunks initTF chunksC5).2 ++
        (finalizeTF (runChunks initTF chunksC5).1).2.2
      = "hello  world".toList) ∧
    ((finalizeTF (runChunks initTF chunksC5).1).2.1 = "secret".toList) ∧
    ((finalizeTF (runChunks initTF chunksC5).1).1 = "hello  world".toList) := by
  obtain ⟨h1, h2, h3, h4⟩ := runChunks_spec chunks initTF []
  simp only [show initTF.inThinking = false from rfl,
    show initTF.buffer = ([] : List Char) from rfl,
    show initTF.thinkingContent = ([] : List Char) from rfl,
    show initTF.cleanContent = ([] : List Char) from rfl,
    List.append_nil, List.nil_append] at h1 h2 h3
  have hNoTag : NoTagSt (runChunks initTF chunks).1 := by
    refine h4 ⟨?_, ?_⟩ <;> intro _ <;> decide
  set st1 := (runChunks initTF chunks).1 with hst1
  refine ⟨?_, ?_, ?_, by decide, by decide, by decide⟩ <;>
  · rcases hbe : st1.buffer.isEmpty with _ | _
    case false =>
      rcases hmode : st1.inThinking with _ | _
      case false =>
        have hsem : semScan false st1.buffer = (st1.buffer, []) :=
          semScan_false_none (hNoTag.1 hmode)
        rw [hmode] at h1 h2
        rw [hsem] at h1 h2
        simp only [List.append_nil] at h1 h2
        simp only [finalizeTF, hbe, hmode, Bool.false_eq_true, if_false]
        first
          | (exact h1)
          | (rw [h3, h1])
          | (rw [h2])
      case true =>
        have hsem : semScan true st1.buffer = ([], st1.buffer) :=
          semScan_true_none (hNoTag.2 hmode)
        rw [hmode] at h1 h2
        rw [hsem] at h1 h2
        simp only [List.append_nil] at h1 h2
        simp only [finalizeTF, hbe, hmode, Bool.false_eq_true, if_false,
          if_true]
        first
          | (rw [List.append_nil]; exact h1)
          | (rw [h3, h1])
          | (rw [h2])
    case true =>
      have hbuf : st1.buffer = [] := List.isEmpty_iff.mp hbe
      rcases hmode : st1.inThinking with _ | _ <;>
        rw [hmode] at h1 h2 <;>
        rw [hbuf] at h1 h2 <;>
        [(rw [show semScan false [] = ([], []) from
            semScan_false_none (by decide)] at h1 h2);
         (rw [show semScan true [] = ([], []) from
            semScan_true_none (by decide)] at h1 h2)] <;>
        simp only [List.append_nil] at h1 h2 <;>
        simp only [finalizeTF, hbe, if_true] <;>
        first
          | (rw [List.append_nil]; exact h1)
          | (rw [h3, h1])
          | (rw [h2])

/-! ## Conversation-history projection (`Session.get_conversation_history`,
`src/tiny_adk/session.py` lines 40–110)

The method walks `self.events` once, keeping a `pending_tool_calls`
buffer, and returns a list of OpenAI-format message dicts.  `Msg` is the
shape of those dicts; `ToolCallEntry` is one element of a `tool_calls`
array. -/

/-- One entry of a `tool_calls` array, as built at `session.py` lines
69–76: `{'id': ..., 'type': 'function', 'function': {'name': ...,
'arguments': ...}}` (the nested `function` dict is flattened into two
fields). -/
structure ToolCallEntry where
  id : String
  type : String
  name : String
  arguments : String
  deriving DecidableEq, Repr

/-- A message dict emitted by `get_conversation_history`: the four
shapes appended at lines 52, 60, 81 and 89 of `session.py`.  The
assistant-with-tool-calls shape has `content: None`, carried by the
constructor itself. -/
inductive Msg where
  | user (content : String)
  | assistant (content : String)
  | assistantCalls (calls : List ToolCallEntry)
  | tool (content : String) (callId : String)
  deriving DecidableEq, Repr

/-- JSON escaping of one character, as by `json.dumps`, restricted to
the escapes exercised by string keys and values (quote, backslash and
the common control characters); other characters stand for
themselves. -/
def jsonEscChar (c : Char) : String :=
  if c = '"' then "\\\""
  else if c = '\\' then "\\\\"
  else if c = '\n' then "\\n"
  else if c = '\t' then "\\t"
  else if c = '\r' then "\\r"
  else String.mk [c]

/-- A JSON-quoted string. -/
def jsonStr (s : String) : String :=
  "\"" ++ String.join (s.toList.map jsonEscChar) ++ "\""

/-- Embedding of `Session._dict_to_json` (lines 105–110): a value that is
already a string passes through unchanged, a dict is serialized by
`json.dumps(..., ensure_ascii=False)` (default separators: `", "` and
`": "`). -/
def dictToJson : ArgVal → String
  | .str s => s
  | .dict d =>
      "\x7b" ++
        String.intercalate ", "
          (d.map (fun kv => jsonStr kv.1 ++ ": " ++ jsonStr kv.2)) ++
      "\x7d"

/-- The entry built for one tool-call event (lines 69–76), with the
`dict.get` defaults `'call_unknown'`, `''` and `{}` of the source. -/
def toolCallEntry (id name : Option String) (args : Option ArgVal) :
    ToolCallEntry :=
  { id := id.getD "call_unknown"
    type := "function"
    name := name.getD ""
    arguments := dictToJson (args.getD (.dict [])) }

/-- The flush of a pending buffer (lines 80–86 and 96–101): nothing when
the buffer is empty, otherwise one assistant turn carrying the buffer. -/
def flushList (p : List ToolCallEntry) : List Msg :=
  if p.isEmpty then [] else [.assistantCalls p]

/-- The event loop of `get_conversation_history` (lines 47–103), with the
pending buffer as an explicit accumulator.  `model_response` emits only
when `event.content` is truthy (non-empty); `tool_response` first flushes
the pending buffer, then emits the tool turn and continues with an empty
buffer; event kinds outside the `if`/`elif` chain are skipped; a leftover
buffer is flushed at the end. -/
def histAux : List PEvent → List ToolCallEntry → List Msg
  | [], p => flushList p
  | .userMessage c :: rest, p => .user c :: histAux rest p
  | .modelRequest :: rest, p => histAux rest p
  | .modelResponse c :: rest, p =>
      if c = "" then histAux rest p else .assistant c :: histAux rest p
  | .modelResponseDelta _ :: rest, p => histAux rest p
  | .toolCall id nm args :: rest, p =>
      histAux rest (p ++ [toolCallEntry id nm args])
  | .toolResponse cid res :: rest, p =>
      flushList p ++
        .tool (res.getD "") (cid.getD "call_unknown") :: histAux rest []
  | .agentTransfer :: rest, p => histAux rest p
  | .error :: rest, p => histAux rest p

/-- Embedding of `Session.get_conversation_history`: the loop started
with an empty pending buffer. -/
def getConversationHistory (s : Session) : List Msg :=
  histAux s.events []

/-- Is this message an assistant turn carrying a `tool_calls` array? -/
def Msg.isCalls : Msg → Bool
  | .assistantCalls _ => true
  | .user _ => false
  | .assistant _ => false
  | .tool _ _ => false

/-- The `tool_calls` array carried by a message (empty for the other
shapes). -/
def Msg.callsOf : Msg → List ToolCallEntry
  | .assistantCalls cs => cs
  | .user _ => []
  | .assistant _ => []
  | .tool _ _ => []

/-- The message a single event contributes directly (not via the pending
buffer): a user turn, a non-empty assistant turn, or a tool turn. -/
def immediateTurn? : PEvent → Option Msg
  | .userMessage c => some (.user c)
  | .modelRequest => none
  | .modelResponse c => if c = "" then none else some (.assistant c)
  | .modelResponseDelta _ => none
  | .toolCall _ _ _ => none
  | .toolResponse cid res =>
      some (.tool (res.getD "") (cid.getD "call_unknown"))
  | .agentTransfer => none
  | .error => none

/-- The tool-call entries a single event contributes to the buffers. -/
def callEntriesOf : PEvent → List ToolCallEntry
  | .userMessage _ => []
  | .modelRequest => []
  | .modelResponse _ => []
  | .modelResponseDelta _ => []
  | .toolCall id nm args => [toolCallEntry id nm args]
  | .toolResponse _ _ => []
  | .agentTransfer => []
  | .error => []

/-- Does the list start with a tool turn (or end here)? -/
def headToolOrNil : List Msg → Bool
  | [] => true
  | .tool _ _ :: _ => true
  | .user _ :: _ => false
  | .assistant _ :: _ => false
  | .assistantCalls _ :: _ => false

/-- Every `tool_calls` assistant turn is non-empty and stands immediately
before a tool turn, or last. -/
def flushOk : List Msg → Bool
  | [] => true
  | .assistantCalls cs :: rest =>
      !cs.isEmpty && headToolOrNil rest && flushOk rest
  | .user _ :: rest => flushOk rest
  | .assistant _ :: rest => flushOk rest
  | .tool _ _ :: rest => flushOk rest

@[simp] theorem isCalls_user (c : String) : (Msg.user c).isCalls = false := rfl

@[simp] theorem isCalls_assistant (c : String) :
    (Msg.assistant c).isCalls = false := rfl

@[simp] theorem isCalls_assistantCalls (cs : List ToolCallEntry) :
    (Msg.assistantCalls cs).isCalls = true := rfl

@[simp] theorem isCalls_tool (c k : String) :
    (Msg.tool c k).isCalls = false := rfl

@[simp] theorem callsOf_user (c : String) : (Msg.user c).callsOf = [] := rfl

@[simp] theorem callsOf_assistant (c : String) :
    (Msg.assistant c).callsOf = [] := rfl

@[simp] theorem callsOf_assistantCalls (cs : List ToolCallEntry) :
    (Msg.assistantCalls cs).callsOf = cs := rfl

@[simp] theorem callsOf_tool (c k : String) :
    (Msg.tool c k).callsOf = [] := rfl

@[simp] theorem immediateTurn_userMessage (c : String) :
    immediateTurn? (.userMessage c) = some (.user c) := rfl

@[simp] theorem immediateTurn_modelRequest :
    immediateTurn? .modelRequest = none := rfl

@[simp] theorem immediateTurn_modelResponse (c : String) :
    immediateTurn? (.modelResponse c)
      = if c = "" then none else some (.assistant c) := rfl

@[simp] theorem immediateTurn_modelResponseDelta (c : String) :
    immediateTurn? (.modelResponseDelta c) = none := rfl

@[simp] theorem immediateTurn_toolCall (id nm : Option String)
    (args : Option ArgVal) : immediateTurn? (.toolCall id nm args) = none :=
  rfl

@[simp] theorem immediateTurn_toolResponse (cid res : Option String) :
    immediateTurn? (.toolResponse cid res)
      = some (.tool (res.getD "") (cid.getD "call_unknown")) := rfl

@[simp] theorem immediateTurn_agentTransfer :
    immediateTurn? .agentTransfer = none := rfl

@[simp] theorem immediateTurn_err : immediateTurn? .error = none := rfl

@[simp] theorem callEntriesOf_userMessage (c : String) :
    callEntriesOf (.userMessage c) = [] := rfl

@[simp] theorem callEntriesOf_modelRequest :
    callEntriesOf .modelRequest = [] := rfl

@[simp] theorem callEntriesOf_modelResponse (c : String) :
    callEntriesOf (.modelResponse c) = [] := rfl

@[simp] theorem callEntriesOf_modelResponseDelta (c : String) :
    callEntriesOf (.modelResponseDelta c) = [] := rfl

@[simp] theorem callEntriesOf_toolCall (id nm : Option String)
    (args : Option ArgVal) :
    callEntriesOf (.toolCall id nm args) = [toolCallEntry id nm args] := rfl

@[simp] theorem callEntriesOf_toolResponse (cid res : Option String) :
    callEntriesOf (.toolResponse cid res) = [] := rfl

@[simp] theorem callEntriesOf_agentTransfer :
    callEntriesOf .agentTransfer = [] := rfl

@[simp] theorem callEntriesOf_err : callEntriesOf .error = [] := rfl

@[simp] theorem headToolOrNil_nil : headToolOrNil [] = true := rfl

@[simp] theorem headToolOrNil_tool (c k : String) (l : List Msg) :
    headToolOrNil (.tool c k :: l) = true := rfl

@[simp] theorem flushOk_nil : flushOk [] = true := rfl

@[simp] theorem flushOk_user (c : String) (l : List Msg) :
    flushOk (.user c :: l) = flushOk l := rfl

@[simp] theorem flushOk_assistant (c : String) (l : List Msg) :
    flushOk (.assistant c :: l) = flushOk l := rfl

@[simp] theorem flushOk_tool (c k : String) (l : List Msg) :
    flushOk (.tool c k :: l) = flushOk l := rfl

@[simp] theorem flushOk_assistantCalls (cs : List ToolCallEntry)
    (l : List Msg) :
    flushOk (.assistantCalls cs :: l)
      = (!cs.isEmpty && headToolOrNil l && flushOk l) := rfl

theorem filter_flushList (p : List ToolCallEntry) :
    (flushList p).filter (fun m => ! m.isCalls) = [] := by
  by_cases hp : p.isEmpty <;> simp [flushList, hp]

theorem flatMap_flushList (p : List ToolCallEntry) :
    (flushList p).flatMap Msg.callsOf = p := by
  by_cases hp : p.isEmpty
  · simp [flushList, hp, List.isEmpty_iff.mp hp]
  · simp [flushList, hp]

/-- Dropping the `tool_calls` assistant turns from the history leaves
exactly the per-event immediate turns, in event order — whatever the
initial pending buffer. -/
theorem histAux_filter_nonCalls (ev : List PEvent) (p : List ToolCallEntry) :
    (histAux ev p).filter (fun m => ! m.isCalls)
      = ev.filterMap immediateTurn? := by
  induction ev generalizing p with
  | nil => simpa [histAux] using filter_flushList p
  | cons e rest ih =>
    cases e with
    | userMessage c =>
        simp [histAux, List.filterMap_cons, ih]
    | modelRequest =>
        simp [histAux, List.filterMap_cons, ih]
    | modelResponse c =>
        by_cases hc : c = "" <;>
          simp [histAux, List.filterMap_cons, hc, ih]
    | modelResponseDelta c =>
        simp [histAux, List.filterMap_cons, ih]
    | toolCall id nm args =>
        simp [histAux, List.filterMap_cons, ih]
    | toolResponse cid res =>
        simp [histAux, List.filterMap_cons,
          List.filter_append, filter_flushList, ih]
    | agentTransfer =>
        simp [histAux, List.filterMap_cons, ih]
    | error =>
        simp [histAux, List.filterMap_cons, ih]

/-- Flattening the `tool_calls` arrays of the history recovers the
initial pending buffer followed by one entry per tool-call event, in
event order: nothing is dropped, duplicated or reordered. -/
theorem histAux_flatMap_calls (ev : List PEvent) (p : List ToolCallEntry) :
    (histAux ev p).flatMap Msg.callsOf = p ++ ev.flatMap callEntriesOf := by
  induction ev generalizing p with
  | nil => simpa [histAux] using flatMap_flushList p
  | cons e rest ih =>
    cases e with
    | userMessage c => simp [histAux, ih]
    | modelRequest => simp [histAux, ih]
    | modelResponse c =>
        by_cases hc : c = "" <;> simp [histAux, hc, ih]
    | modelResponseDelta c => simp [histAux, ih]
    | toolCall id nm args => simp [histAux, ih]
    | toolResponse cid res =>
        simp [histAux, flatMap_flushList, ih]
    | agentTransfer => simp [histAux, ih]
    | error => simp [histAux, ih]

/-- The flush discipline holds along the whole history: every
`tool_calls` assistant turn is non-empty and immediately precedes a tool
turn, or is the final turn. -/
theorem histAux_flushOk (ev : List PEvent) (p : List ToolCallEntry) :
    flushOk (histAux ev p) = true := by
  induction ev generalizing p with
  | nil =>
    by_cases hp : p.isEmpty <;> simp [histAux, flushList, hp]
  | cons e rest ih =>
    cases e with
    | userMessage c => simp [histAux, ih]
    | modelRequest => simp [histAux, ih]
    | modelResponse c =>
        by_cases hc : c = "" <;> simp [histAux, hc, ih]
    | modelResponseDelta c => simp [histAux, ih]
    | toolCall id nm args => simp [histAux, ih]
    | toolResponse cid res =>
        by_cases hp : p.isEmpty <;>
          simp [histAux, flushList, hp, ih]
    | agentTransfer => simp [histAux, ih]
    | error => simp [histAux, ih]

theorem getIdx_append_cons {α : Type} (A : List α) (y : α) (l : List α)
    (t : ℕ) : (A ++ y :: l)[A.length + 1 + t]? = l[t]? := by
  rw [List.getElem?_append_right (by omega)]
  have h : A.length + 1 + t - A.length = t + 1 := by omega
  rw [h, List.getElem?_cons_succ]

/-- Every tool-response event produces a tool turn somewhere in the
history. -/
theorem histAux_toolTurn_mem {ev : List PEvent} {j : ℕ}
    {cid res : Option String}
    (hj : ev[j]? = some (.toolResponse cid res)) (p : List ToolCallEntry) :
    ∃ t : ℕ, (histAux ev p)[t]?
      = some (.tool (res.getD "") (cid.getD "call_unknown")) := by
  induction ev generalizing j p with
  | nil => simp at hj
  | cons e rest ih =>
    cases j with
    | zero =>
      simp only [List.getElem?_cons_zero, Option.some.injEq] at hj
      subst hj
      refine ⟨(flushList p).length, ?_⟩
      simp only [histAux]
      rw [List.getElem?_append_right (le_refl _)]
      simp
    | succ j' =>
      rw [List.getElem?_cons_succ] at hj
      cases e with
      | userMessage c =>
        obtain ⟨t, ht⟩ := ih hj p
        exact ⟨t + 1, by simpa [histAux] using ht⟩
      | modelRequest => simpa [histAux] using ih hj p
      | modelResponse c =>
        by_cases hc : c = ""
        · simpa [histAux, hc] using ih hj p
        · obtain ⟨t, ht⟩ := ih hj p
          refine ⟨t + 1, ?_⟩
          simp only [histAux, if_neg hc]
          simpa using ht
      | modelResponseDelta c => simpa [histAux] using ih hj p
      | toolCall id nm args =>
        simpa [histAux] using ih hj (p ++ [toolCallEntry id nm args])
      | toolResponse cid2 res2 =>
        obtain ⟨t, ht⟩ := ih hj []
        refine ⟨(flushList p).length + 1 + t, ?_⟩
        simp only [histAux]
        rw [getIdx_append_cons]
        exact ht
      | agentTransfer => simpa [histAux] using ih hj p
      | error => simpa [histAux] using ih hj p

/-- An entry already pending is flushed into a `tool_calls` assistant
turn strictly before the tool turn of any upcoming tool-response
event. -/
theorem histAux_pending_precedes {ev : List PEvent} {j : ℕ}
    {cid res : Option String} {en : ToolCallEntry} {p : List ToolCallEntry}
    (hj : ev[j]? = some (.toolResponse cid res)) (hen : en ∈ p) :
    ∃ a t : ℕ, a < t ∧
      (∃ cs, (histAux ev p)[a]? = some (.assistantCalls cs) ∧ en ∈ cs) ∧
      (histAux ev p)[t]?
        = some (.tool (res.getD "") (cid.getD "call_unknown")) := by
  induction ev generalizing j p with
  | nil => simp at hj
  | cons e rest ih =>
    have hpne : p.isEmpty = false := by
      cases p with
      | nil => simp at hen
      | cons x xs => rfl
    cases j with
    | zero =>
      simp only [List.getElem?_cons_zero, Option.some.injEq] at hj
      subst hj
      refine ⟨0, 1, Nat.one_pos, ⟨p, ?_, hen⟩, ?_⟩
      · simp [histAux, flushList, hpne]
      · simp [histAux, flushList, hpne]
    | succ j' =>
      rw [List.getElem?_cons_succ] at hj
      cases e with
      | userMessage c =>
        obtain ⟨a, t, hat, ⟨cs, ha, hcs⟩, ht⟩ := ih hj hen
        exact ⟨a + 1, t + 1, by omega, ⟨cs, by simpa [histAux] using ha, hcs⟩,
          by simpa [histAux] using ht⟩
      | modelRequest => simpa [histAux] using ih hj hen
      | modelResponse c =>
        by_cases hc : c = ""
        · simpa [histAux, hc] using ih hj hen
        · obtain ⟨a, t, hat, ⟨cs, ha, hcs⟩, ht⟩ := ih hj hen
          refine ⟨a + 1, t + 1, by omega, ⟨cs, ?_, hcs⟩, ?_⟩
          · simp only [histAux, if_neg hc]
            simpa using ha
          · simp only [histAux, if_neg hc]
            simpa using ht
      | modelResponseDelta c => simpa [histAux] using ih hj hen
      | toolCall id nm args =>
        simpa [histAux] using ih hj (List.mem_append_left _ hen)
      | toolResponse cid2 res2 =>
        obtain ⟨t, ht⟩ := histAux_toolTurn_mem hj []
        refine ⟨0, (flushList p).length + 1 + t, by positivity,
          ⟨p, ?_, hen⟩, ?_⟩
        · simp [histAux, flushList, hpne]
        · simp only [histAux]
          rw [getIdx_append_cons]
          exact ht
      | agentTransfer => simpa [histAux] using ih hj hen
      | error => simpa [histAux] using ih hj hen

/-- A tool-call event followed (anywhere later) by a tool-response event
yields its entry in a `tool_calls` assistant turn strictly before the
tool turn of that response. -/
theorem histAux_call_precedes {ev : List PEvent} {i j : ℕ}
    {id nm : Option String} {args : Option ArgVal}
    {cid res : Option String} {p : List ToolCallEntry}
    (hi : ev[i]? = some (.toolCall id nm args))
    (hj : ev[j]? = some (.toolResponse cid res)) (hij : i < j) :
    ∃ a t : ℕ, a < t ∧
      (∃ cs, (histAux ev p)[a]? = some (.assistantCalls cs) ∧
        toolCallEntry id nm args ∈ cs) ∧
      (histAux ev p)[t]?
        = some (.tool (res.getD "") (cid.getD "call_unknown")) := by
  induction ev generalizing i j p with
  | nil => simp at hi
  | cons e rest ih =>
    cases i with
    | zero =>
      simp only [List.getElem?_cons_zero, Option.some.injEq] at hi
      subst hi
      cases j with
      | zero => omega
      | succ j' =>
        rw [List.getElem?_cons_succ] at hj
        have hmem : toolCallEntry id nm args
            ∈ p ++ [toolCallEntry id nm args] :=
          List.mem_append_right p (List.mem_singleton_self _)
        simpa [histAux] using histAux_pending_precedes hj hmem
    | succ i' =>
      cases j with
      | zero => omega
      | succ j' =>
        rw [List.getElem?_cons_succ] at hi
        rw [List.getElem?_cons_succ] at hj
        have hij' : i' < j' := by omega
        cases e with
        | userMessage c =>
          obtain ⟨a, t, hat, ⟨cs, ha, hcs⟩, ht⟩ := ih hi hj hij'
          exact ⟨a + 1, t + 1, by omega,
            ⟨cs, by simpa [histAux] using ha, hcs⟩,
            by simpa [histAux] using ht⟩
        | modelRequest => simpa [histAux] using ih hi hj hij'
        | modelResponse c =>
          by_cases hc : c = ""
          · simpa [histAux, hc] using ih hi hj hij'
          · obtain ⟨a, t, hat, ⟨cs, ha, hcs⟩, ht⟩ := ih hi hj hij'
            refine ⟨a + 1, t + 1, by omega, ⟨cs, ?_, hcs⟩, ?_⟩
            · simp only [histAux, if_neg hc]
              simpa using ha
            · simp only [histAux, if_neg hc]
              simpa using ht
        | modelResponseDelta c => simpa [histAux] using ih hi hj hij'
        | toolCall id2 nm2 args2 => simpa [histAux] using ih hi hj hij'
        | toolResponse cid2 res2 =>
          obtain ⟨a, t, hat, ⟨cs, ha, hcs⟩, ht⟩ :=
            ih (p := []) hi hj hij'
          refine ⟨(flushList p).length + 1 + a,
            (flushList p).length + 1 + t, by omega, ⟨cs, ?_, hcs⟩, ?_⟩
          · simp only [histAux]
            rw [getIdx_append_cons]
            exact ha
          · simp only [histAux]
            rw [getIdx_append_cons]
            exact ht
        | agentTransfer => simpa [histAux] using ih hi hj hij'
        | error => simpa [histAux] using ih hi hj hij'

/-- A concrete session: a user turn, one tool call, its response, and a
final assistant answer. -/
def sessC2 : Session :=
  { sessionId := "s"
    userId := "u"
    events := [.userMessage "hi",
      .toolCall (some "call_1") (some "get_weather")
        (some (.dict [("city", "Beijing")])),
      .toolResponse (some "call_1") (some "sunny"),
      .modelResponse "done"]
    metadata := []
    state := [] }

/-! ### Claim C2 -/

/-- C2: `get_conversation_history` walks the events in order — filtering
out the `tool_calls` assistant turns leaves exactly one user turn per
user-message event, one assistant turn per non-empty model-response
event and one tool turn per tool-response event, in event order;
flattening the `tool_calls` arrays recovers exactly one entry (id,
type `function`, name, JSON-encoded arguments) per tool-call event, in
event order; every `tool_calls` assistant turn is non-empty and stands
immediately before a tool turn or last (pending calls are flushed right
before the next tool-response turn, leftovers at the end); and a
tool-call event followed by a (matching) tool-response event yields its
entry in an assistant turn strictly preceding that response's tool
turn. -/
theorem getConversationHistory_projection :
    (∀ s : Session, (getConversationHistory s).filter (fun m => ! m.isCalls)
        = s.events.filterMap immediateTurn?) ∧
    (∀ s : Session, (getConversationHistory s).flatMap Msg.callsOf
        = s.events.flatMap callEntriesOf) ∧
    (∀ s : Session, flushOk (getConversationHistory s) = true) ∧
    (∀ (s : Session) (i j : ℕ) (id nm : Option String)
        (args : Option ArgVal) (cid res : Option String),
      s.events[i]? = some (.toolCall id nm args) →
      s.events[j]? = some (.toolResponse cid res) →
      i < j →
      ∃ a t : ℕ, a < t ∧
        (∃ cs, (getConversationHistory s)[a]? = some (.assistantCalls cs) ∧
          toolCallEntry id nm args ∈ cs) ∧
        (getConversationHistory s)[t]?
          = some (.tool (res.getD "") (cid.getD "call_unknown"))) := by
  refine ⟨fun s => histAux_filter_nonCalls s.events [],
    fun s => by simpa using histAux_flatMap_calls s.events [],
    fun s => histAux_flushOk s.events [],
    fun s i j id nm args cid res hi hj hij =>
      histAux_call_precedes hi hj hij⟩

/-- C2 witness: on the concrete session the tool-call entry for
`call_1`/`get_weather` sits in an assistant turn strictly before the
matching tool turn, the hypotheses holding by computation. -/
theorem getConversationHistory_projection_witness :
    sessC2.events[1]? = some (.toolCall (some "call_1") (some "get_weather")
        (some (.dict [("city", "Beijing")]))) ∧
    sessC2.events[2]? = some (.toolResponse (some "call_1") (some "sunny")) ∧
    (1 : ℕ) < 2 ∧
    (∃ a t : ℕ, a < t ∧
      (∃ cs, (getConversationHistory sessC2)[a]?
          = some (.assistantCalls cs) ∧
        toolCallEntry (some "call_1") (some "get_weather")
          (some (.dict [("city", "Beijing")])) ∈ cs) ∧
      (getConversationHistory sessC2)[t]?
        = some (.tool ((some "sunny").getD "")
            ((some "call_1").getD "call_unknown"))) :=
  ⟨rfl, rfl, by decide,
    getConversationHistory_projection.2.2.2 sessC2 1 2 (some "call_1")
      (some "get_weather") (some (.dict [("city", "Beijing")]))
      (some "call_1") (some "sunny") rfl rfl (by decide)⟩

end TinyAdk
